import Mathlib

/-!
Verification of the generic 2D search tree (`searchTree2D.h`).

The C++ header is translated into a shallow embedding:
* `Strategy` renders the `SearchPredicate` interface, its five operations
  modelled as pure functions (the spec requires them to be deterministic
  functions of their inputs).  `buildQuadrantsFromData` in the source fills a
  mutable map from quadrant code to region reference; here it returns the four
  quadrant regions in the fixed key order of the `std::map`
  (UPPER_LEFT, UPPER_RIGHT, LOWER_LEFT, LOWER_RIGHT).
* `Node` renders the private `Node` class: a region (`m_compare`), four
  independently nullable child slots (`m_mapRegions`, keyed in the same fixed
  order), and a local value set (`m_data`).
* Values live in a type with a strict total order (`LinearOrder`), as required
  for `std::set`; local sets are `Finset`s, and `std::set` iteration order is
  rendered by `sortedList`.
* `Node::rebalance` recurses through newly created children, so its
  termination depends on the injected strategy; it is modelled with an explicit
  fuel parameter and returns `none` when the fuel runs out.  It also returns
  `none` in the state the C++ code dereferences a null child pointer
  (a node with one to three children entering the quadrant-rebuild step).
-/

set_option autoImplicit false

set_option linter.unusedSectionVars false

variable {V R : Type} [LinearOrder V]

/-! Basic lemmas about the embedding. -/

/-- The strategy interface (`SearchPredicate` in the source): five operations,
modelled as pure functions of their inputs. -/
structure Strategy (V R : Type) where
  nilCompare : R
  buildRegionFromData : Finset V → R
  buildQuadrantsFromData : R → Finset V → R × R × R × R
  satisfies : R → V → Bool
  overlaps : R → R → Bool

/-- `g_minDataSize`: the minimum-data threshold (3 in the source). -/
def g_minDataSize : ℕ := 3

/-- A tree node: its search region, four independently nullable child slots
(upper-left, upper-right, lower-left, lower-right), and its local value set. -/
inductive Node (V R : Type) : Type where
  | mk (compare : R) (ul ur ll lr : Option (Node V R)) (data : Finset V)

def Node.compare : Node V R → R
  | .mk c _ _ _ _ _ => c

def Node.ul : Node V R → Option (Node V R)
  | .mk _ x _ _ _ _ => x

def Node.ur : Node V R → Option (Node V R)
  | .mk _ _ x _ _ _ => x

def Node.ll : Node V R → Option (Node V R)
  | .mk _ _ _ x _ _ => x

def Node.lr : Node V R → Option (Node V R)
  | .mk _ _ _ _ x _ => x

def Node.data : Node V R → Finset V
  | .mk _ _ _ _ _ d => d

/-- A fresh node as built by the default constructor: the strategy's nil
region, four null children, no data. -/
def Node.new (s : Strategy V R) : Node V R := .mk s.nilCompare none none none none ∅

/-- `Node::hasChildren`: at least one child slot is non-null. -/
def Node.hasChildren : Node V R → Bool
  | .mk _ ul ur ll lr _ => ul.isSome || ur.isSome || ll.isSome || lr.isSome

/-- `Node::setCompare`. -/
def Node.setCompare (c : R) : Node V R → Node V R
  | .mk _ ul ur ll lr d => .mk c ul ur ll lr d

mutual

/-- `Node::getAllChildValues`: every value reachable from this node
(children, recursively, plus the local set). -/
def Node.getAllChildValues : Node V R → Finset V
  | .mk _ ul ur ll lr d =>
      optValues ul ∪ optValues ur ∪ optValues ll ∪ optValues lr ∪ d

/-- Values reachable through one (possibly null) child slot. -/
def optValues : Option (Node V R) → Finset V
  | none => ∅
  | some n => n.getAllChildValues

end

/-- Whether a (possibly null) child's region accepts a value
(the `region.second && predicate.satisfies(...)` test in `Node::add`). -/
def acceptsOpt (s : Strategy V R) (v : V) : Option (Node V R) → Bool
  | none => false
  | some m => s.satisfies m.compare v

mutual

/-- `Node::add`: with children, insert into every child whose region satisfies
the value; if none accepted it, keep it locally (an orphan).  Without
children, insert locally. -/
def Node.add (s : Strategy V R) (v : V) : Node V R → Node V R
  | .mk c ul ur ll lr d =>
    if ul.isSome || ur.isSome || ll.isSome || lr.isSome then
      let wasAdded := acceptsOpt s v ul || acceptsOpt s v ur || acceptsOpt s v ll || acceptsOpt s v lr
      .mk c (addOpt s v ul) (addOpt s v ur) (addOpt s v ll) (addOpt s v lr)
        (if wasAdded then d else insert v d)
    else
      .mk c ul ur ll lr (insert v d)

/-- One child slot during `Node::add`: a non-null child receives the value
exactly when its region satisfies it. -/
def addOpt (s : Strategy V R) (v : V) : Option (Node V R) → Option (Node V R)
  | none => none
  | some m => if s.satisfies m.compare v then some (m.add s v) else some m

end

mutual

/-- `Node::remove`: remove from every (non-null) child unconditionally, and
always erase from the local set. -/
def Node.remove (v : V) : Node V R → Node V R
  | .mk c ul ur ll lr d =>
      .mk c (removeOpt v ul) (removeOpt v ur) (removeOpt v ll) (removeOpt v lr) (d.erase v)

/-- One child slot during `Node::remove`. -/
def removeOpt (v : V) : Option (Node V R) → Option (Node V R)
  | none => none
  | some m => some (m.remove v)

end

/-- `Node::clear`: recursively clear and discard all children, clear the local
set.  In this value-level model the recursive child clearing has no observable
effect beyond the children being discarded; the node's own region is kept. -/
def Node.clear : Node V R → Node V R
  | .mk c _ _ _ _ _ => .mk c none none none none ∅

mutual

/-- `Node::getNearbyValues`: union of the children's results, plus this node's
local set when the strategy says this node's region overlaps the test
region. -/
def Node.getNearbyValues (s : Strategy V R) (test : R) : Node V R → Finset V
  | .mk c ul ur ll lr d =>
      optNearby s test ul ∪ optNearby s test ur ∪ optNearby s test ll ∪ optNearby s test lr ∪
        (if s.overlaps c test then d else ∅)

/-- One child slot during `Node::getNearbyValues`. -/
def optNearby (s : Strategy V R) (test : R) : Option (Node V R) → Finset V
  | none => ∅
  | some n => n.getNearbyValues s test

end

/-- `Node::buildRootRegion`: set this node's region from all reachable
values through the strategy. -/
def Node.buildRootRegion (s : Strategy V R) (n : Node V R) : Node V R :=
  n.setCompare (s.buildRegionFromData n.getAllChildValues)

/-- The elements of a finite set listed in increasing order — the iteration
order of a `std::set`.  Implemented with insertion sort so that it evaluates
by kernel reduction. -/
def sortedList (S : Finset V) : List V :=
  Quot.liftOn S.val (fun l => List.insertionSort (· ≤ ·) l) (fun a b hab =>
    List.eq_of_perm_of_sorted
      (((List.perm_insertionSort _ a).trans hab).trans (List.perm_insertionSort _ b).symm)
      (List.sorted_insertionSort _ a) (List.sorted_insertionSort _ b))

/-- `Node::shouldSubdivide`: false exactly when every value satisfies every
one of the four candidate quadrant regions. -/
def Node.shouldSubdivide (s : Strategy V R) (vals : Finset V) (q : R × R × R × R) : Bool :=
  !((sortedList vals).all fun v =>
      s.satisfies q.1 v && s.satisfies q.2.1 v && s.satisfies q.2.2.1 v && s.satisfies q.2.2.2 v)

/-- A node holding values `d` as a leaf with region `c` (the
`deleteChildren(); m_data = setAllData;` outcome of `Node::rebalance`). -/
def leafNode (c : R) (d : Finset V) : Node V R := .mk c none none none none d

/-- Re-add a whole value set through `Node::add`, in `std::set` iteration
order (the re-insertion loops of `Node::rebalance`). -/
def Node.addAll (s : Strategy V R) (vals : Finset V) (n : Node V R) : Node V R :=
  (sortedList vals).foldl (fun m v => m.add s v) n

/-- `Node::rebalance`, with explicit fuel for the recursion through (possibly
newly created) children.  `none` models both fuel exhaustion and the null
dereference the source performs when a node entering the quadrant-rebuild step
has only one to three children. -/
def Node.rebalance (s : Strategy V R) : ℕ → Node V R → Option (Node V R)
  | 0, _ => none
  | fuel+1, n =>
    let vals := n.getAllChildValues.filter (fun v => s.satisfies n.compare v)
    let recChild : Option (Node V R) → Option (Option (Node V R)) := fun o =>
      match o with
      | none => some none
      | some m => (Node.rebalance s fuel m).map some
    match n with
    | .mk c ul ur ll lr _ =>
      if ul.isSome || ur.isSome || ll.isSome || lr.isSome then
        if vals.card ≤ g_minDataSize then
          some (leafNode c vals)
        else
          match ul, ur, ll, lr with
          | some cul, some cur, some cll, some clr =>
            let q := s.buildQuadrantsFromData c vals
            if Node.shouldSubdivide s vals q then
              let base : Node V R := .mk c (some (cul.setCompare q.1)) (some (cur.setCompare q.2.1))
                (some (cll.setCompare q.2.2.1)) (some (clr.setCompare q.2.2.2)) ∅
              let n2 := Node.addAll s vals base
              do
                let ul' ← recChild n2.ul
                let ur' ← recChild n2.ur
                let ll' ← recChild n2.ll
                let lr' ← recChild n2.lr
                some (.mk n2.compare ul' ur' ll' lr' n2.data)
            else
              some (leafNode c vals)
          | _, _, _, _ => none
      else
        if vals.card ≤ g_minDataSize then
          some (leafNode c vals)
        else
          let q := s.buildQuadrantsFromData c vals
          if Node.shouldSubdivide s vals q then
            let base : Node V R := .mk c (some (leafNode q.1 ∅)) (some (leafNode q.2.1 ∅))
              (some (leafNode q.2.2.1 ∅)) (some (leafNode q.2.2.2 ∅)) ∅
            let n2 := Node.addAll s vals base
            do
              let ul' ← recChild n2.ul
              let ur' ← recChild n2.ur
              let ll' ← recChild n2.ll
              let lr' ← recChild n2.lr
              some (.mk n2.compare ul' ur' ll' lr' n2.data)
          else
            some (leafNode c vals)

/-- One child slot of the recursive-rebalance loops of `Node::rebalance`. -/
def rebOpt (s : Strategy V R) (fuel : ℕ) : Option (Node V R) → Option (Option (Node V R))
  | none => some none
  | some m => (Node.rebalance s fuel m).map some

/-- The child-rebalancing loops of `Node::rebalance`: rebalance every non-null
child in place. -/
def Node.rebalanceKids (s : Strategy V R) (fuel : ℕ) (n : Node V R) : Option (Node V R) := do
  let ul' ← rebOpt s fuel n.ul
  let ur' ← rebOpt s fuel n.ur
  let ll' ← rebOpt s fuel n.ll
  let lr' ← rebOpt s fuel n.lr
  some (.mk n.compare ul' ur' ll' lr' n.data)

/-- The tree facade: owns exactly one root node. -/
structure SearchTree2D (V R : Type) where
  m_tree : Node V R

/-- A freshly constructed, empty tree. -/
def SearchTree2D.new (s : Strategy V R) : SearchTree2D V R := ⟨Node.new s⟩

def SearchTree2D.add (s : Strategy V R) (v : V) (t : SearchTree2D V R) : SearchTree2D V R :=
  ⟨t.m_tree.add s v⟩

def SearchTree2D.remove (v : V) (t : SearchTree2D V R) : SearchTree2D V R :=
  ⟨t.m_tree.remove v⟩

def SearchTree2D.clear (t : SearchTree2D V R) : SearchTree2D V R :=
  ⟨t.m_tree.clear⟩

def SearchTree2D.getNearbyValues (s : Strategy V R) (test : R) (t : SearchTree2D V R) : Finset V :=
  t.m_tree.getNearbyValues s test

/-- `SearchTree2D::rebalance`: rebuild the root region, then rebalance. -/
def SearchTree2D.rebalance (s : Strategy V R) (fuel : ℕ) (t : SearchTree2D V R) :
    Option (SearchTree2D V R) :=
  (Node.rebalance s fuel (t.m_tree.buildRootRegion s)).map SearchTree2D.mk

@[simp] theorem Node.hasChildren_mk (c : R) (ul ur ll lr : Option (Node V R)) (d : Finset V) :
    (Node.mk c ul ur ll lr d).hasChildren = (ul.isSome || ur.isSome || ll.isSome || lr.isSome) :=
  rfl

@[simp] theorem optValues_none : optValues (V := V) (R := R) none = ∅ := rfl

@[simp] theorem optValues_some (n : Node V R) : optValues (some n) = n.getAllChildValues := rfl

@[simp] theorem Node.getAllChildValues_mk (c : R) (ul ur ll lr : Option (Node V R)) (d : Finset V) :
    (Node.mk c ul ur ll lr d).getAllChildValues =
      optValues ul ∪ optValues ur ∪ optValues ll ∪ optValues lr ∪ d := by
  rw [Node.getAllChildValues]

@[simp] theorem optNearby_none (s : Strategy V R) (test : R) :
    optNearby s test none = ∅ := rfl

@[simp] theorem optNearby_some (s : Strategy V R) (test : R) (n : Node V R) :
    optNearby s test (some n) = n.getNearbyValues s test := rfl

@[simp] theorem Node.getNearbyValues_mk (s : Strategy V R) (test : R) (c : R)
    (ul ur ll lr : Option (Node V R)) (d : Finset V) :
    (Node.mk c ul ur ll lr d).getNearbyValues s test =
      optNearby s test ul ∪ optNearby s test ur ∪ optNearby s test ll ∪ optNearby s test lr ∪
        (if s.overlaps c test then d else ∅) := by
  rw [Node.getNearbyValues]

@[simp] theorem removeOpt_none (v : V) : removeOpt (R := R) v none = none := rfl

@[simp] theorem removeOpt_some (v : V) (n : Node V R) :
    removeOpt v (some n) = some (n.remove v) := rfl

@[simp] theorem Node.remove_mk (v : V) (c : R) (ul ur ll lr : Option (Node V R)) (d : Finset V) :
    (Node.mk c ul ur ll lr d).remove v =
      Node.mk c (removeOpt v ul) (removeOpt v ur) (removeOpt v ll) (removeOpt v lr) (d.erase v) := by
  rw [Node.remove]

omit [LinearOrder V] in
mutual

/-- Size of a node (for induction over the tree structure). -/
def Node.size : Node V R → ℕ
  | .mk _ ul ur ll lr _ => optSize ul + optSize ur + optSize ll + optSize lr + 1

/-- Size of a child slot. -/
def optSize : Option (Node V R) → ℕ
  | none => 0
  | some n => n.size + 1

end

/-- Whether some non-null child of `n` accepts `v` (the `wasAdded` flag of
`Node::add`). -/
def anyAccepts (s : Strategy V R) (v : V) (n : Node V R) : Bool :=
  acceptsOpt s v n.ul || acceptsOpt s v n.ur || acceptsOpt s v n.ll || acceptsOpt s v n.lr

/-- The value set a rebalance pass works with: everything reachable from the
node that still satisfies the node's own region (`setAllData` after the
erase loop in `Node::rebalance`). -/
def Node.keptValues (s : Strategy V R) (n : Node V R) : Finset V :=
  n.getAllChildValues.filter (fun v => s.satisfies n.compare v)

/-- The effect of one `Node::add` step on one non-null child. -/
def condAdd (s : Strategy V R) (v : V) (m : Node V R) : Node V R :=
  if s.satisfies m.compare v then m.add s v else m

/-- The node a subdividing rebalance pass re-adds its values to: region kept,
local set cleared, and each child slot holding either the old child with its
region overwritten by the candidate quadrant (branch path) or a fresh empty
node carrying the candidate quadrant (leaf path). -/
def childOrNew (qc : R) : Option (Node V R) → Node V R
  | none => leafNode qc ∅
  | some m => m.setCompare qc

def quadBase (s : Strategy V R) (n : Node V R) : Node V R :=
  Node.mk n.compare
    (some (childOrNew (s.buildQuadrantsFromData n.compare (n.keptValues s)).1 n.ul))
    (some (childOrNew (s.buildQuadrantsFromData n.compare (n.keptValues s)).2.1 n.ur))
    (some (childOrNew (s.buildQuadrantsFromData n.compare (n.keptValues s)).2.2.1 n.ll))
    (some (childOrNew (s.buildQuadrantsFromData n.compare (n.keptValues s)).2.2.2 n.lr))
    ∅

mutual

/-- All nodes of a subtree (the node itself and, recursively, its non-null
children). -/
def Node.subtreeNodes : Node V R → List (Node V R)
  | .mk c ul ur ll lr d =>
      Node.mk c ul ur ll lr d ::
        (optSubtree ul ++ optSubtree ur ++ optSubtree ll ++ optSubtree lr)

/-- The nodes reachable through one (possibly null) child slot. -/
def optSubtree : Option (Node V R) → List (Node V R)
  | none => []
  | some n => n.subtreeNodes

end

mutual

/-- The `Node` copy constructor: copies the region and the local set, and
recursively clones every non-null child. -/
def Node.copy : Node V R → Node V R
  | .mk c ul ur ll lr d => .mk c (copyOpt ul) (copyOpt ur) (copyOpt ll) (copyOpt lr) d

/-- One child slot during copying: null stays null, a child is cloned. -/
def copyOpt : Option (Node V R) → Option (Node V R)
  | none => none
  | some n => some n.copy

end

/-- The tree copy constructor: copies the root node (deep copy). -/
def SearchTree2D.copy (t : SearchTree2D V R) : SearchTree2D V R := ⟨t.m_tree.copy⟩

/-- A concrete deterministic strategy over naturals used to exercise the
stale-value behaviour of rebalancing (regions are encoded as numbers). -/
def cexA : Strategy ℕ ℕ where
  nilCompare := 0
  buildRegionFromData := fun S => if 5 ∈ S then 2 else 1
  buildQuadrantsFromData := fun r _ => (100 + r, 200 + r, 300 + r, 400 + r)
  satisfies := fun r v =>
    if r = 1 then true
    else if r = 2 then v ≠ 5
    else if r = 101 ∨ r = 102 then v ≤ 1 ∨ v = 5
    else if r = 201 ∨ r = 202 then v = 2 ∨ v = 3
    else if r = 301 ∨ r = 302 then v = 4
    else if r = 401 ∨ r = 402 then v = 4
    else false
  overlaps := fun _ _ => true

/-- Five values inserted into a fresh tree under `cexA`. -/
def cexA_t0 : SearchTree2D ℕ ℕ :=
  (SearchTree2D.new cexA).add cexA 0 |>.add cexA 1 |>.add cexA 2 |>.add cexA 3 |>.add cexA 4

/-- A concrete deterministic strategy used in the counterexample to strict
rebalance idempotence: whether 9 is present changes the root region, and the
two candidate root regions reject different values. -/
def cexB : Strategy ℕ ℕ where
  nilCompare := 0
  buildRegionFromData := fun S => if 9 ∈ S then 20 else 21
  buildQuadrantsFromData := fun r _ => (100 + r, 200 + r, 300 + r, 400 + r)
  satisfies := fun r v =>
    if r = 20 then v ≠ 9
    else if r = 21 then v ≠ 0
    else if r = 120 then v ≤ 1
    else if r = 220 then v = 2 ∨ v = 3
    else if r = 320 then v = 3
    else if r = 420 then v = 3
    else false
  overlaps := fun _ _ => true

/-- Five values inserted into a fresh tree under `cexB`. -/
def cexB_t0 : SearchTree2D ℕ ℕ :=
  (SearchTree2D.new cexB).add cexB 0 |>.add cexB 1 |>.add cexB 2 |>.add cexB 3 |>.add cexB 9

/-- A minimal concrete strategy whose built regions satisfy every value
(used to instantiate theorems with hypotheses at a concrete input). -/
def cexW : Strategy ℕ ℕ where
  nilCompare := 0
  buildRegionFromData := fun _ => 0
  buildQuadrantsFromData := fun r _ => (r, r, r, r)
  satisfies := fun _ _ => true
  overlaps := fun _ _ => true

/-- The tree holding the single value 1 under `cexW`. -/
def cexW_t : SearchTree2D ℕ ℕ := (SearchTree2D.new cexW).add cexW 1

/-- The result of rebalancing `cexW_t`. -/
def cexW_t1 : SearchTree2D ℕ ℕ :=
  ⟨leafNode 0 (Finset.filter (fun v => cexW.satisfies 0 v = true) {1})⟩

/-- A concrete strategy whose `overlaps` distinguishes the nil region (0)
from the rebuilt root region (1), exposing that `clear` keeps the old
region. -/
def cexC : Strategy ℕ ℕ where
  nilCompare := 0
  buildRegionFromData := fun _ => 1
  buildQuadrantsFromData := fun r _ => (r, r, r, r)
  satisfies := fun _ _ => true
  overlaps := fun a _ => a = 1

mutual

/-- Zero-or-four invariant: every node in the subtree has either no children
at all or all four child slots populated. -/
def Node.wf : Node V R → Prop
  | .mk _ ul ur ll lr _ =>
      ((ul = none ∧ ur = none ∧ ll = none ∧ lr = none) ∨
        (ul.isSome = true ∧ ur.isSome = true ∧ ll.isSome = true ∧ lr.isSome = true)) ∧
      optWF ul ∧ optWF ur ∧ optWF ll ∧ optWF lr

/-- The invariant through one (possibly null) child slot. -/
def optWF : Option (Node V R) → Prop
  | none => True
  | some n => n.wf

end

/-- The trees reachable through the public interface: default construction,
`add`, `remove`, `clear`, copying, and a completing `rebalance`.  (Move and
swap only transfer whole roots between trees, so they introduce no new node
graphs.) -/
inductive Reachable (s : Strategy V R) : SearchTree2D V R → Prop where
  | new : Reachable s (SearchTree2D.new s)
  | add (v : V) {t : SearchTree2D V R} : Reachable s t → Reachable s (t.add s v)
  | remove (v : V) {t : SearchTree2D V R} : Reachable s t → Reachable s (t.remove v)
  | clear {t : SearchTree2D V R} : Reachable s t → Reachable s t.clear
  | copy {t : SearchTree2D V R} : Reachable s t → Reachable s t.copy
  | rebalance (fuel : ℕ) {t t' : SearchTree2D V R} : Reachable s t →
      SearchTree2D.rebalance s fuel t = some t' → Reachable s t'

theorem coe_sortedList (S : Finset V) : (sortedList S : Multiset V) = S.val := by
  rcases S with ⟨m, hm⟩
  induction m using Quot.inductionOn with
  | h l => exact Quot.sound (List.perm_insertionSort _ l)

theorem mem_sortedList {S : Finset V} {v : V} : v ∈ sortedList S ↔ v ∈ S := by
  rw [← Multiset.mem_coe, coe_sortedList]; rfl

@[simp] theorem Node.compare_mk (c : R) (ul ur ll lr : Option (Node V R)) (d : Finset V) :
    (Node.mk c ul ur ll lr d).compare = c := rfl

@[simp] theorem Node.ul_mk (c : R) (ul ur ll lr : Option (Node V R)) (d : Finset V) :
    (Node.mk c ul ur ll lr d).ul = ul := rfl

@[simp] theorem Node.ur_mk (c : R) (ul ur ll lr : Option (Node V R)) (d : Finset V) :
    (Node.mk c ul ur ll lr d).ur = ur := rfl

@[simp] theorem Node.ll_mk (c : R) (ul ur ll lr : Option (Node V R)) (d : Finset V) :
    (Node.mk c ul ur ll lr d).ll = ll := rfl

@[simp] theorem Node.lr_mk (c : R) (ul ur ll lr : Option (Node V R)) (d : Finset V) :
    (Node.mk c ul ur ll lr d).lr = lr := rfl

@[simp] theorem Node.data_mk (c : R) (ul ur ll lr : Option (Node V R)) (d : Finset V) :
    (Node.mk c ul ur ll lr d).data = d := rfl

@[simp] theorem Node.setCompare_mk (c c' : R) (ul ur ll lr : Option (Node V R)) (d : Finset V) :
    (Node.mk c ul ur ll lr d).setCompare c' = Node.mk c' ul ur ll lr d := rfl

theorem Node.setCompare_self (n : Node V R) : n.setCompare n.compare = n := by
  rcases n with ⟨c, ul, ur, ll, lr, d⟩; rfl

omit [LinearOrder V] in
@[simp] theorem optSize_none : optSize (V := V) (R := R) none = 0 := rfl

omit [LinearOrder V] in
@[simp] theorem optSize_some (n : Node V R) : optSize (some n) = n.size + 1 := rfl

omit [LinearOrder V] in
@[simp] theorem Node.size_mk (c : R) (ul ur ll lr : Option (Node V R)) (d : Finset V) :
    (Node.mk c ul ur ll lr d).size = optSize ul + optSize ur + optSize ll + optSize lr + 1 := by
  rw [Node.size]

omit [LinearOrder V] in
/-- Structural induction over a node and its (nullable) children. -/
theorem Node.myRec {motive : Node V R → Prop}
    (h : ∀ (c : R) (ul ur ll lr : Option (Node V R)) (d : Finset V),
      (∀ n, ul = some n → motive n) → (∀ n, ur = some n → motive n) →
      (∀ n, ll = some n → motive n) → (∀ n, lr = some n → motive n) →
      motive (Node.mk c ul ur ll lr d)) : ∀ n, motive n
  | .mk c ul ur ll lr d =>
      h c ul ur ll lr d
        (fun n hn => Node.myRec h n)
        (fun n hn => Node.myRec h n)
        (fun n hn => Node.myRec h n)
        (fun n hn => Node.myRec h n)
termination_by n => n.size
decreasing_by
  all_goals subst hn
  all_goals simp only [Node.size_mk, optSize_some]
  all_goals omega

@[simp] theorem addOpt_none (s : Strategy V R) (v : V) : addOpt s v none = none := rfl

theorem addOpt_some (s : Strategy V R) (v : V) (m : Node V R) :
    addOpt s v (some m) = if s.satisfies m.compare v then some (m.add s v) else some m := by
  rw [addOpt]

/-- Uniform characterization of `Node::add`: each non-null child receives the
value exactly when its region satisfies it, and the local set receives it
exactly when no child accepted it.  (For a node without children all slots are
null, so no child accepts and the value lands in the local set, matching the
leaf branch of the source.) -/
theorem Node.add_eq (s : Strategy V R) (v : V) (n : Node V R) :
    n.add s v = Node.mk n.compare (addOpt s v n.ul) (addOpt s v n.ur) (addOpt s v n.ll)
      (addOpt s v n.lr) (if anyAccepts s v n then n.data else insert v n.data) := by
  rcases n with ⟨c, ul, ur, ll, lr, d⟩
  rw [Node.add]
  rcases ul with _ | x1 <;> rcases ur with _ | x2 <;> rcases ll with _ | x3 <;>
    rcases lr with _ | x4 <;> simp [anyAccepts, acceptsOpt]

theorem Node.add_compare (s : Strategy V R) (v : V) (n : Node V R) :
    (n.add s v).compare = n.compare := by rw [Node.add_eq]; rfl

theorem Node.add_ul (s : Strategy V R) (v : V) (n : Node V R) :
    (n.add s v).ul = addOpt s v n.ul := by rw [Node.add_eq]; rfl

theorem Node.add_ur (s : Strategy V R) (v : V) (n : Node V R) :
    (n.add s v).ur = addOpt s v n.ur := by rw [Node.add_eq]; rfl

theorem Node.add_ll (s : Strategy V R) (v : V) (n : Node V R) :
    (n.add s v).ll = addOpt s v n.ll := by rw [Node.add_eq]; rfl

theorem Node.add_lr (s : Strategy V R) (v : V) (n : Node V R) :
    (n.add s v).lr = addOpt s v n.lr := by rw [Node.add_eq]; rfl

theorem Node.add_data (s : Strategy V R) (v : V) (n : Node V R) :
    (n.add s v).data = if anyAccepts s v n then n.data else insert v n.data := by
  rw [Node.add_eq]; rfl

theorem optValues_addOpt (s : Strategy V R) (v : V) (o : Option (Node V R))
    (IH : ∀ m, o = some m → (m.add s v).getAllChildValues = insert v m.getAllChildValues) :
    optValues (addOpt s v o) =
      if acceptsOpt s v o then insert v (optValues o) else optValues o := by
  cases o with
  | none => simp [acceptsOpt]
  | some m =>
      rw [addOpt_some]
      by_cases hs : s.satisfies m.compare v
      · simp [hs, acceptsOpt, IH m rfl]
      · simp [hs, acceptsOpt]

/-- `Node::add` never loses a value: the reachable value set afterwards is the
old one plus the new value. -/
theorem Node.allValues_add (s : Strategy V R) (v : V) :
    ∀ n : Node V R, (n.add s v).getAllChildValues = insert v n.getAllChildValues := by
  intro n
  induction n using Node.myRec with
  | h c ul ur ll lr d hul hur hll hlr =>
    rw [Node.add_eq]
    simp only [Node.getAllChildValues_mk, Node.compare_mk, Node.ul_mk, Node.ur_mk, Node.ll_mk,
      Node.lr_mk, Node.data_mk,
      optValues_addOpt s v ul hul, optValues_addOpt s v ur hur,
      optValues_addOpt s v ll hll, optValues_addOpt s v lr hlr]
    have hany : anyAccepts s v (Node.mk c ul ur ll lr d) =
        (acceptsOpt s v ul || acceptsOpt s v ur || acceptsOpt s v ll || acceptsOpt s v lr) := rfl
    rw [hany]
    ext w
    by_cases a1 : acceptsOpt s v ul <;> by_cases a2 : acceptsOpt s v ur <;>
      by_cases a3 : acceptsOpt s v ll <;> by_cases a4 : acceptsOpt s v lr <;>
      simp [a1, a2, a3, a4, Finset.mem_union, Finset.mem_insert] <;> tauto

theorem optValues_removeOpt (v : V) (o : Option (Node V R))
    (IH : ∀ m, o = some m → (m.remove v).getAllChildValues = m.getAllChildValues.erase v) :
    optValues (removeOpt v o) = (optValues o).erase v := by
  cases o with
  | none => simp
  | some m => simp [IH m rfl]

/-- `Node::remove` erases exactly the requested value from the reachable value
set. -/
theorem Node.allValues_remove (v : V) :
    ∀ n : Node V R, (n.remove v).getAllChildValues = n.getAllChildValues.erase v := by
  intro n
  induction n using Node.myRec with
  | h c ul ur ll lr d hul hur hll hlr =>
    rw [Node.remove_mk]
    simp only [Node.getAllChildValues_mk,
      optValues_removeOpt v ul hul, optValues_removeOpt v ur hur,
      optValues_removeOpt v ll hll, optValues_removeOpt v lr hlr]
    simp [Finset.erase_union_distrib]

/-- Removing an absent value is a no-op on the whole node graph. -/
theorem Node.remove_noop (v : V) :
    ∀ n : Node V R, v ∉ n.getAllChildValues → n.remove v = n := by
  intro n
  induction n using Node.myRec with
  | h c ul ur ll lr d hul hur hll hlr =>
    intro hv
    simp only [Node.getAllChildValues_mk, Finset.mem_union, not_or] at hv
    obtain ⟨⟨⟨⟨h1, h2⟩, h3⟩, h4⟩, h5⟩ := hv
    rw [Node.remove_mk]
    have e1 : removeOpt v ul = ul := by
      cases ul with
      | none => rfl
      | some m => simp only [removeOpt_some]; rw [hul m rfl (by simpa using h1)]
    have e2 : removeOpt v ur = ur := by
      cases ur with
      | none => rfl
      | some m => simp only [removeOpt_some]; rw [hur m rfl (by simpa using h2)]
    have e3 : removeOpt v ll = ll := by
      cases ll with
      | none => rfl
      | some m => simp only [removeOpt_some]; rw [hll m rfl (by simpa using h3)]
    have e4 : removeOpt v lr = lr := by
      cases lr with
      | none => rfl
      | some m => simp only [removeOpt_some]; rw [hlr m rfl (by simpa using h4)]
    rw [e1, e2, e3, e4, Finset.erase_eq_of_not_mem h5]

/-- Query results only ever surface stored values. -/
theorem Node.nearby_subset_allValues (s : Strategy V R) (test : R) :
    ∀ n : Node V R, n.getNearbyValues s test ⊆ n.getAllChildValues := by
  intro n
  induction n using Node.myRec with
  | h c ul ur ll lr d hul hur hll hlr =>
    intro w hw
    simp only [Node.getNearbyValues_mk, Finset.mem_union] at hw
    simp only [Node.getAllChildValues_mk, Finset.mem_union]
    rcases hw with ((((h1 | h2) | h3) | h4) | h5)
    · refine Or.inl (Or.inl (Or.inl (Or.inl ?_)))
      cases ul with
      | none => simpa using h1
      | some m => exact hul m rfl (by simpa using h1)
    · refine Or.inl (Or.inl (Or.inl (Or.inr ?_)))
      cases ur with
      | none => simpa using h2
      | some m => exact hur m rfl (by simpa using h2)
    · refine Or.inl (Or.inl (Or.inr ?_))
      cases ll with
      | none => simpa using h3
      | some m => exact hll m rfl (by simpa using h3)
    · refine Or.inl (Or.inr ?_)
      cases lr with
      | none => simpa using h4
      | some m => exact hlr m rfl (by simpa using h4)
    · right
      by_cases ho : s.overlaps c test <;> simp [ho] at h5
      exact h5

theorem Node.rebalance_zero (s : Strategy V R) (n : Node V R) :
    Node.rebalance s 0 n = none := rfl

/-- Rebalance outcome when the surviving data set is at or below the
threshold: the node becomes a leaf holding exactly that set (children, if
any, are deleted). -/
theorem Node.rebalance_small (s : Strategy V R) (fuel : ℕ) (n : Node V R)
    (h : (n.keptValues s).card ≤ g_minDataSize) :
    Node.rebalance s (fuel + 1) n = some (leafNode n.compare (n.keptValues s)) := by
  rcases n with ⟨c, ul, ur, ll, lr, d⟩
  rw [Node.keptValues] at h
  simp only [Node.rebalance, Node.keptValues, Node.compare_mk, Node.getAllChildValues_mk] at h ⊢
  simp only [h, if_true, ite_self]

/-- Rebalance outcome for a childless node when subdividing is useless:
stay a leaf holding the surviving set. -/
theorem Node.rebalance_leaf_noSubdiv (s : Strategy V R) (fuel : ℕ) (c : R) (d : Finset V)
    (hcard : ¬ ((Node.mk c none none none none d).keptValues s).card ≤ g_minDataSize)
    (hsub : Node.shouldSubdivide s ((Node.mk c none none none none d).keptValues s)
        (s.buildQuadrantsFromData c ((Node.mk c none none none none d).keptValues s)) = false) :
    Node.rebalance s (fuel + 1) (Node.mk c none none none none d) =
      some (leafNode c ((Node.mk c none none none none d).keptValues s)) := by
  simp only [Node.keptValues, Node.compare_mk] at hcard hsub
  simp only [Node.keptValues, Node.compare_mk]
  simp only [Node.rebalance, Node.compare_mk, Option.isSome_none, Bool.or_self, Bool.false_eq_true,
    if_false, hcard, hsub, ite_self]

/-- Rebalance outcome for a four-child node when subdividing is useless:
delete the children and become a leaf holding the surviving set. -/
theorem Node.rebalance_branch_noSubdiv (s : Strategy V R) (fuel : ℕ) (c : R)
    (cul cur cll clr : Node V R) (d : Finset V)
    (hcard : ¬ ((Node.mk c (some cul) (some cur) (some cll) (some clr) d).keptValues s).card ≤
      g_minDataSize)
    (hsub : Node.shouldSubdivide s
        ((Node.mk c (some cul) (some cur) (some cll) (some clr) d).keptValues s)
        (s.buildQuadrantsFromData c
          ((Node.mk c (some cul) (some cur) (some cll) (some clr) d).keptValues s)) = false) :
    Node.rebalance s (fuel + 1) (Node.mk c (some cul) (some cur) (some cll) (some clr) d) =
      some (leafNode c ((Node.mk c (some cul) (some cur) (some cll) (some clr) d).keptValues s)) := by
  simp only [Node.keptValues, Node.compare_mk] at hcard hsub
  simp only [Node.keptValues, Node.compare_mk]
  simp only [Node.rebalance, Node.compare_mk, Option.isSome_some, Bool.or_self, if_true,
    hcard, hsub, Bool.false_eq_true, if_false, ite_self]

/-- Rebalance outcome for a childless node that subdivides: four fresh
children are created with the candidate quadrant regions, the surviving set is
re-added through `Node::add`, and every child is rebalanced recursively. -/
theorem Node.rebalance_leaf_subdiv (s : Strategy V R) (fuel : ℕ) (c : R) (d : Finset V)
    (hcard : ¬ ((Node.mk c none none none none d).keptValues s).card ≤ g_minDataSize)
    (hsub : Node.shouldSubdivide s ((Node.mk c none none none none d).keptValues s)
        (s.buildQuadrantsFromData c ((Node.mk c none none none none d).keptValues s)) = true) :
    Node.rebalance s (fuel + 1) (Node.mk c none none none none d) =
      (let vals := (Node.mk c none none none none d).keptValues s
       let q := s.buildQuadrantsFromData c vals
       Node.rebalanceKids s fuel (Node.addAll s vals
         (Node.mk c (some (leafNode q.1 ∅)) (some (leafNode q.2.1 ∅))
           (some (leafNode q.2.2.1 ∅)) (some (leafNode q.2.2.2 ∅)) ∅))) := by
  simp only [Node.keptValues, Node.compare_mk] at hcard hsub
  simp only [Node.keptValues, Node.compare_mk]
  simp only [Node.rebalance, Node.compare_mk, Option.isSome_none, Bool.or_self,
    Bool.false_eq_true, if_false, hcard, hsub, if_true]
  simp only [Node.rebalanceKids, rebOpt.eq_def]

/-- Rebalance outcome for a four-child node that subdivides: the children's
regions are overwritten with the candidate quadrants, the surviving set is
re-added through `Node::add`, and every child is rebalanced recursively. -/
theorem Node.rebalance_branch_subdiv (s : Strategy V R) (fuel : ℕ) (c : R)
    (cul cur cll clr : Node V R) (d : Finset V)
    (hcard : ¬ ((Node.mk c (some cul) (some cur) (some cll) (some clr) d).keptValues s).card ≤
      g_minDataSize)
    (hsub : Node.shouldSubdivide s
        ((Node.mk c (some cul) (some cur) (some cll) (some clr) d).keptValues s)
        (s.buildQuadrantsFromData c
          ((Node.mk c (some cul) (some cur) (some cll) (some clr) d).keptValues s)) = true) :
    Node.rebalance s (fuel + 1) (Node.mk c (some cul) (some cur) (some cll) (some clr) d) =
      (let vals := (Node.mk c (some cul) (some cur) (some cll) (some clr) d).keptValues s
       let q := s.buildQuadrantsFromData c vals
       Node.rebalanceKids s fuel (Node.addAll s vals
         (Node.mk c (some (cul.setCompare q.1)) (some (cur.setCompare q.2.1))
           (some (cll.setCompare q.2.2.1)) (some (clr.setCompare q.2.2.2)) ∅))) := by
  simp only [Node.keptValues, Node.compare_mk] at hcard hsub
  simp only [Node.keptValues, Node.compare_mk]
  simp only [Node.rebalance, Node.compare_mk, Option.isSome_some, Bool.or_self, if_true,
    hcard, Bool.false_eq_true, if_false, hsub]
  simp only [Node.rebalanceKids, rebOpt.eq_def]

theorem toFinset_sortedList (S : Finset V) : (sortedList S).toFinset = S := by
  ext w; simp [List.mem_toFinset, mem_sortedList]

theorem foldl_add_compare (s : Strategy V R) (l : List V) (n : Node V R) :
    (l.foldl (fun m v => m.add s v) n).compare = n.compare := by
  induction l generalizing n with
  | nil => rfl
  | cons w tl ih => simp only [List.foldl_cons]; rw [ih, Node.add_compare]

theorem foldl_add_ul (s : Strategy V R) (l : List V) (n : Node V R) :
    (l.foldl (fun m v => m.add s v) n).ul = l.foldl (fun o v => addOpt s v o) n.ul := by
  induction l generalizing n with
  | nil => rfl
  | cons w tl ih => simp only [List.foldl_cons]; rw [ih, Node.add_ul]

theorem foldl_add_ur (s : Strategy V R) (l : List V) (n : Node V R) :
    (l.foldl (fun m v => m.add s v) n).ur = l.foldl (fun o v => addOpt s v o) n.ur := by
  induction l generalizing n with
  | nil => rfl
  | cons w tl ih => simp only [List.foldl_cons]; rw [ih, Node.add_ur]

theorem foldl_add_ll (s : Strategy V R) (l : List V) (n : Node V R) :
    (l.foldl (fun m v => m.add s v) n).ll = l.foldl (fun o v => addOpt s v o) n.ll := by
  induction l generalizing n with
  | nil => rfl
  | cons w tl ih => simp only [List.foldl_cons]; rw [ih, Node.add_ll]

theorem foldl_add_lr (s : Strategy V R) (l : List V) (n : Node V R) :
    (l.foldl (fun m v => m.add s v) n).lr = l.foldl (fun o v => addOpt s v o) n.lr := by
  induction l generalizing n with
  | nil => rfl
  | cons w tl ih => simp only [List.foldl_cons]; rw [ih, Node.add_lr]

theorem acceptsOpt_addOpt (s : Strategy V R) (v w : V) (o : Option (Node V R)) :
    acceptsOpt s v (addOpt s w o) = acceptsOpt s v o := by
  cases o with
  | none => rfl
  | some m =>
      rw [addOpt_some]
      by_cases hs : s.satisfies m.compare w <;> simp [hs, acceptsOpt, Node.add_compare]

theorem anyAccepts_add (s : Strategy V R) (v w : V) (n : Node V R) :
    anyAccepts s v (n.add s w) = anyAccepts s v n := by
  simp only [anyAccepts, Node.add_ul, Node.add_ur, Node.add_ll, Node.add_lr, acceptsOpt_addOpt]

theorem anyAccepts_foldl_add (s : Strategy V R) (v : V) (l : List V) (n : Node V R) :
    anyAccepts s v (l.foldl (fun m w => m.add s w) n) = anyAccepts s v n := by
  induction l generalizing n with
  | nil => rfl
  | cons w tl ih => simp only [List.foldl_cons]; rw [ih, anyAccepts_add]

theorem foldl_add_data (s : Strategy V R) (l : List V) (n : Node V R) :
    (l.foldl (fun m v => m.add s v) n).data =
      n.data ∪ (l.filter (fun v => !(anyAccepts s v n))).toFinset := by
  induction l generalizing n with
  | nil => simp
  | cons w tl ih =>
      simp only [List.foldl_cons]
      rw [ih]
      have hfc : (tl.filter (fun v => !(anyAccepts s v (n.add s w)))) =
          (tl.filter (fun v => !(anyAccepts s v n))) := by
        apply List.filter_congr
        intro v _
        rw [anyAccepts_add]
      rw [hfc, Node.add_data]
      by_cases hw : anyAccepts s w n
      · simp [hw]
      · simp only [hw, if_false, List.filter_cons, Bool.not_eq_true', eq_self_iff_true]
        have : (!(anyAccepts s w n)) = true := by simp [hw]
        simp [this, Finset.insert_union, Finset.union_insert]

theorem foldl_add_allValues (s : Strategy V R) (l : List V) (n : Node V R) :
    (l.foldl (fun m v => m.add s v) n).getAllChildValues =
      n.getAllChildValues ∪ l.toFinset := by
  induction l generalizing n with
  | nil => simp
  | cons w tl ih =>
      simp only [List.foldl_cons]
      rw [ih, Node.allValues_add]
      ext x
      simp only [Finset.mem_union, Finset.mem_insert, List.mem_toFinset, List.mem_cons]
      tauto

/-- The re-insertion loop of `Node::rebalance` never loses a value. -/
theorem Node.allValues_addAll (s : Strategy V R) (vals : Finset V) (n : Node V R) :
    (n.addAll s vals).getAllChildValues = n.getAllChildValues ∪ vals := by
  rw [Node.addAll, foldl_add_allValues, toFinset_sortedList]

theorem Node.addAll_compare (s : Strategy V R) (vals : Finset V) (n : Node V R) :
    (n.addAll s vals).compare = n.compare := foldl_add_compare s _ n

theorem Node.addAll_data (s : Strategy V R) (vals : Finset V) (n : Node V R) :
    (n.addAll s vals).data =
      n.data ∪ ((sortedList vals).filter (fun v => !(anyAccepts s v n))).toFinset :=
  foldl_add_data s _ n

theorem Node.setCompare_allValues (c : R) (n : Node V R) :
    (n.setCompare c).getAllChildValues = n.getAllChildValues := by
  rcases n with ⟨c0, ul, ur, ll, lr, d⟩; rfl

theorem Node.setCompare_compare (c : R) (n : Node V R) : (n.setCompare c).compare = c := by
  rcases n with ⟨c0, ul, ur, ll, lr, d⟩; rfl

theorem Node.av_decomp (n : Node V R) :
    n.getAllChildValues =
      optValues n.ul ∪ optValues n.ur ∪ optValues n.ll ∪ optValues n.lr ∪ n.data := by
  rcases n with ⟨c, ul, ur, ll, lr, d⟩; rfl

theorem Node.data_subset_allValues (n : Node V R) : n.data ⊆ n.getAllChildValues := by
  rw [Node.av_decomp]; intro x hx; simp [hx]

theorem optValues_ul_subset (n : Node V R) : optValues n.ul ⊆ n.getAllChildValues := by
  rw [Node.av_decomp]; intro x hx; simp [hx]

theorem optValues_ur_subset (n : Node V R) : optValues n.ur ⊆ n.getAllChildValues := by
  rw [Node.av_decomp]; intro x hx; simp [hx]

theorem optValues_ll_subset (n : Node V R) : optValues n.ll ⊆ n.getAllChildValues := by
  rw [Node.av_decomp]; intro x hx; simp [hx]

theorem optValues_lr_subset (n : Node V R) : optValues n.lr ⊆ n.getAllChildValues := by
  rw [Node.av_decomp]; intro x hx; simp [hx]

theorem addOpt_some_eq (s : Strategy V R) (v : V) (m : Node V R) :
    addOpt s v (some m) = some (condAdd s v m) := by
  rw [addOpt_some, condAdd]
  by_cases hs : s.satisfies m.compare v <;> simp [hs]

theorem foldl_addOpt_none (s : Strategy V R) (l : List V) :
    l.foldl (fun o v => addOpt s v o) none = none := by
  induction l with
  | nil => rfl
  | cons w tl ih => simpa using ih

theorem foldl_addOpt_some (s : Strategy V R) (l : List V) (m : Node V R) :
    l.foldl (fun o v => addOpt s v o) (some m) =
      some (l.foldl (fun k v => condAdd s v k) m) := by
  induction l generalizing m with
  | nil => rfl
  | cons w tl ih => simp only [List.foldl_cons, addOpt_some_eq]; exact ih _

theorem condAdd_compare (s : Strategy V R) (v : V) (m : Node V R) :
    (condAdd s v m).compare = m.compare := by
  rw [condAdd]; by_cases hs : s.satisfies m.compare v <;> simp [hs, Node.add_compare]

theorem foldl_condAdd_compare (s : Strategy V R) (l : List V) (m : Node V R) :
    (l.foldl (fun k v => condAdd s v k) m).compare = m.compare := by
  induction l generalizing m with
  | nil => rfl
  | cons w tl ih => simp only [List.foldl_cons]; rw [ih, condAdd_compare]

theorem condAdd_allValues_subset (s : Strategy V R) (v : V) (m : Node V R) :
    m.getAllChildValues ⊆ (condAdd s v m).getAllChildValues := by
  rw [condAdd]
  by_cases hs : s.satisfies m.compare v <;> simp [hs, Node.allValues_add, Finset.subset_insert]

theorem condAdd_allValues_upper (s : Strategy V R) (v : V) (m : Node V R) :
    (condAdd s v m).getAllChildValues ⊆ insert v m.getAllChildValues := by
  rw [condAdd]
  by_cases hs : s.satisfies m.compare v <;> simp [hs, Node.allValues_add, Finset.subset_insert]

theorem foldl_condAdd_allValues_subset (s : Strategy V R) (l : List V) (m : Node V R) :
    m.getAllChildValues ⊆ (l.foldl (fun k v => condAdd s v k) m).getAllChildValues := by
  induction l generalizing m with
  | nil => exact Finset.Subset.refl _
  | cons w tl ih =>
      simp only [List.foldl_cons]
      exact (condAdd_allValues_subset s w m).trans (ih _)

theorem foldl_condAdd_allValues_upper (s : Strategy V R) (l : List V) (m : Node V R) :
    (l.foldl (fun k v => condAdd s v k) m).getAllChildValues ⊆
      m.getAllChildValues ∪ l.toFinset := by
  induction l generalizing m with
  | nil => simp
  | cons w tl ih =>
      simp only [List.foldl_cons]
      refine (ih _).trans ?_
      intro x hx
      simp only [Finset.mem_union, List.mem_toFinset, List.mem_cons] at hx ⊢
      rcases hx with hx | hx
      · have := condAdd_allValues_upper s w m hx
        simp only [Finset.mem_insert] at this
        tauto
      · tauto

theorem foldl_condAdd_mem (s : Strategy V R) (l : List V) (m : Node V R) (v : V)
    (hv : v ∈ l) (hs : s.satisfies m.compare v = true) :
    v ∈ (l.foldl (fun k w => condAdd s w k) m).getAllChildValues := by
  induction l generalizing m with
  | nil => cases hv
  | cons w tl ih =>
      simp only [List.foldl_cons]
      rcases List.mem_cons.mp hv with rfl | hv'
      · apply foldl_condAdd_allValues_subset
        rw [condAdd, if_pos hs, Node.allValues_add]
        exact Finset.mem_insert_self _ _
      · exact ih (condAdd s w m) hv' (by rw [condAdd_compare]; exact hs)

@[simp] theorem rebOpt_none (s : Strategy V R) (fuel : ℕ) : rebOpt s fuel none = some none := rfl

@[simp] theorem rebOpt_some (s : Strategy V R) (fuel : ℕ) (m : Node V R) :
    rebOpt s fuel (some m) = (Node.rebalance s fuel m).map some := rfl

theorem Node.rebalanceKids_inv {s : Strategy V R} {fuel : ℕ} {n m : Node V R}
    (h : Node.rebalanceKids s fuel n = some m) :
    ∃ ul' ur' ll' lr', rebOpt s fuel n.ul = some ul' ∧ rebOpt s fuel n.ur = some ur' ∧
      rebOpt s fuel n.ll = some ll' ∧ rebOpt s fuel n.lr = some lr' ∧
      m = Node.mk n.compare ul' ur' ll' lr' n.data := by
  rcases h1 : rebOpt s fuel n.ul with _ | ul' <;>
    rcases h2 : rebOpt s fuel n.ur with _ | ur' <;>
      rcases h3 : rebOpt s fuel n.ll with _ | ll' <;>
        rcases h4 : rebOpt s fuel n.lr with _ | lr' <;>
          simp only [Node.rebalanceKids, h1, h2, h3, h4, Option.bind_eq_bind',
            Option.none_bind, Option.some_bind] at h
  all_goals try (exact Option.noConfusion h)
  exact ⟨ul', ur', ll', lr', rfl, rfl, rfl, rfl, (Option.some.inj h).symm⟩

theorem rebOpt_some_inv {s : Strategy V R} {fuel : ℕ} {o : Option (Node V R)}
    {x : Option (Node V R)} (h : rebOpt s fuel o = some x) :
    (o = none ∧ x = none) ∨
      (∃ k k', o = some k ∧ Node.rebalance s fuel k = some k' ∧ x = some k') := by
  cases o with
  | none => exact Or.inl ⟨rfl, (Option.some.inj h).symm⟩
  | some k =>
      simp only [rebOpt_some, Option.map_eq_some'] at h
      obtain ⟨k', hk, rfl⟩ := h
      exact Or.inr ⟨k, k', rfl, hk, rfl⟩

/-- Inversion for one successful step of `Node::rebalance`: the node either
became a leaf holding the surviving set (threshold hit, or subdivision
useless), or it subdivided: the surviving set was re-added to the four
quadrant children and every child was rebalanced. -/
theorem Node.rebalance_succ_inv {s : Strategy V R} {fuel : ℕ} {n m : Node V R}
    (h : Node.rebalance s (fuel + 1) n = some m) :
    (((n.keptValues s).card ≤ g_minDataSize ∨
        Node.shouldSubdivide s (n.keptValues s)
          (s.buildQuadrantsFromData n.compare (n.keptValues s)) = false) ∧
      m = leafNode n.compare (n.keptValues s)) ∨
    (¬ (n.keptValues s).card ≤ g_minDataSize ∧
      Node.shouldSubdivide s (n.keptValues s)
        (s.buildQuadrantsFromData n.compare (n.keptValues s)) = true ∧
      Node.rebalanceKids s fuel (Node.addAll s (n.keptValues s) (quadBase s n)) = some m) := by
  rcases n with ⟨c, ul, ur, ll, lr, d⟩
  by_cases hcard : ((Node.mk c ul ur ll lr d).keptValues s).card ≤ g_minDataSize
  · rw [Node.rebalance_small s fuel _ hcard] at h
    exact Or.inl ⟨Or.inl hcard, (Option.some.inj h).symm⟩
  · have hcard' := hcard
    simp only [Node.keptValues, Node.compare_mk] at hcard'
    rcases ul with _ | cul <;> rcases ur with _ | cur <;> rcases ll with _ | cll <;>
      rcases lr with _ | clr
    · -- all four children absent: the leaf path
      by_cases hsub : Node.shouldSubdivide s ((Node.mk c none none none none d).keptValues s)
          (s.buildQuadrantsFromData c ((Node.mk c none none none none d).keptValues s)) = true
      · rw [Node.rebalance_leaf_subdiv s fuel c d hcard hsub] at h
        refine Or.inr ⟨hcard, hsub, ?_⟩
        simpa only [quadBase, childOrNew, Node.compare_mk, Node.ul_mk, Node.ur_mk, Node.ll_mk,
          Node.lr_mk] using h
      · rw [Bool.not_eq_true] at hsub
        rw [Node.rebalance_leaf_noSubdiv s fuel c d hcard hsub] at h
        exact Or.inl ⟨Or.inr hsub, (Option.some.inj h).symm⟩
    · simp only [Node.keptValues, Node.compare_mk, Node.getAllChildValues_mk, optValues_none,
        optValues_some, Finset.empty_union, Finset.union_empty] at hcard'
      exact absurd h (by
        simp only [Node.rebalance, Node.compare_mk, Node.getAllChildValues_mk, optValues_none,
          optValues_some, Finset.empty_union, Finset.union_empty, Option.isSome_some,
          Option.isSome_none, Bool.or_true, Bool.true_or, Bool.false_or, Bool.or_false,
          Bool.or_self, hcard', if_true, if_false, Bool.false_eq_true]
        simp)
    · simp only [Node.keptValues, Node.compare_mk, Node.getAllChildValues_mk, optValues_none,
        optValues_some, Finset.empty_union, Finset.union_empty] at hcard'
      exact absurd h (by
        simp only [Node.rebalance, Node.compare_mk, Node.getAllChildValues_mk, optValues_none,
          optValues_some, Finset.empty_union, Finset.union_empty, Option.isSome_some,
          Option.isSome_none, Bool.or_true, Bool.true_or, Bool.false_or, Bool.or_false,
          Bool.or_self, hcard', if_true, if_false, Bool.false_eq_true]
        simp)
    · simp only [Node.keptValues, Node.compare_mk, Node.getAllChildValues_mk, optValues_none,
        optValues_some, Finset.empty_union, Finset.union_empty] at hcard'
      exact absurd h (by
        simp only [Node.rebalance, Node.compare_mk, Node.getAllChildValues_mk, optValues_none,
          optValues_some, Finset.empty_union, Finset.union_empty, Option.isSome_some,
          Option.isSome_none, Bool.or_true, Bool.true_or, Bool.false_or, Bool.or_false,
          Bool.or_self, hcard', if_true, if_false, Bool.false_eq_true]
        simp)
    · simp only [Node.keptValues, Node.compare_mk, Node.getAllChildValues_mk, optValues_none,
        optValues_some, Finset.empty_union, Finset.union_empty] at hcard'
      exact absurd h (by
        simp only [Node.rebalance, Node.compare_mk, Node.getAllChildValues_mk, optValues_none,
          optValues_some, Finset.empty_union, Finset.union_empty, Option.isSome_some,
          Option.isSome_none, Bool.or_true, Bool.true_or, Bool.false_or, Bool.or_false,
          Bool.or_self, hcard', if_true, if_false, Bool.false_eq_true]
        simp)
    · simp only [Node.keptValues, Node.compare_mk, Node.getAllChildValues_mk, optValues_none,
        optValues_some, Finset.empty_union, Finset.union_empty] at hcard'
      exact absurd h (by
        simp only [Node.rebalance, Node.compare_mk, Node.getAllChildValues_mk, optValues_none,
          optValues_some, Finset.empty_union, Finset.union_empty, Option.isSome_some,
          Option.isSome_none, Bool.or_true, Bool.true_or, Bool.false_or, Bool.or_false,
          Bool.or_self, hcard', if_true, if_false, Bool.false_eq_true]
        simp)
    · simp only [Node.keptValues, Node.compare_mk, Node.getAllChildValues_mk, optValues_none,
        optValues_some, Finset.empty_union, Finset.union_empty] at hcard'
      exact absurd h (by
        simp only [Node.rebalance, Node.compare_mk, Node.getAllChildValues_mk, optValues_none,
          optValues_some, Finset.empty_union, Finset.union_empty, Option.isSome_some,
          Option.isSome_none, Bool.or_true, Bool.true_or, Bool.false_or, Bool.or_false,
          Bool.or_self, hcard', if_true, if_false, Bool.false_eq_true]
        simp)
    · simp only [Node.keptValues, Node.compare_mk, Node.getAllChildValues_mk, optValues_none,
        optValues_some, Finset.empty_union, Finset.union_empty] at hcard'
      exact absurd h (by
        simp only [Node.rebalance, Node.compare_mk, Node.getAllChildValues_mk, optValues_none,
          optValues_some, Finset.empty_union, Finset.union_empty, Option.isSome_some,
          Option.isSome_none, Bool.or_true, Bool.true_or, Bool.false_or, Bool.or_false,
          Bool.or_self, hcard', if_true, if_false, Bool.false_eq_true]
        simp)
    · simp only [Node.keptValues, Node.compare_mk, Node.getAllChildValues_mk, optValues_none,
        optValues_some, Finset.empty_union, Finset.union_empty] at hcard'
      exact absurd h (by
        simp only [Node.rebalance, Node.compare_mk, Node.getAllChildValues_mk, optValues_none,
          optValues_some, Finset.empty_union, Finset.union_empty, Option.isSome_some,
          Option.isSome_none, Bool.or_true, Bool.true_or, Bool.false_or, Bool.or_false,
          Bool.or_self, hcard', if_true, if_false, Bool.false_eq_true]
        simp)
    · simp only [Node.keptValues, Node.compare_mk, Node.getAllChildValues_mk, optValues_none,
        optValues_some, Finset.empty_union, Finset.union_empty] at hcard'
      exact absurd h (by
        simp only [Node.rebalance, Node.compare_mk, Node.getAllChildValues_mk, optValues_none,
          optValues_some, Finset.empty_union, Finset.union_empty, Option.isSome_some,
          Option.isSome_none, Bool.or_true, Bool.true_or, Bool.false_or, Bool.or_false,
          Bool.or_self, hcard', if_true, if_false, Bool.false_eq_true]
        simp)
    · simp only [Node.keptValues, Node.compare_mk, Node.getAllChildValues_mk, optValues_none,
        optValues_some, Finset.empty_union, Finset.union_empty] at hcard'
      exact absurd h (by
        simp only [Node.rebalance, Node.compare_mk, Node.getAllChildValues_mk, optValues_none,
          optValues_some, Finset.empty_union, Finset.union_empty, Option.isSome_some,
          Option.isSome_none, Bool.or_true, Bool.true_or, Bool.false_or, Bool.or_false,
          Bool.or_self, hcard', if_true, if_false, Bool.false_eq_true]
        simp)
    · simp only [Node.keptValues, Node.compare_mk, Node.getAllChildValues_mk, optValues_none,
        optValues_some, Finset.empty_union, Finset.union_empty] at hcard'
      exact absurd h (by
        simp only [Node.rebalance, Node.compare_mk, Node.getAllChildValues_mk, optValues_none,
          optValues_some, Finset.empty_union, Finset.union_empty, Option.isSome_some,
          Option.isSome_none, Bool.or_true, Bool.true_or, Bool.false_or, Bool.or_false,
          Bool.or_self, hcard', if_true, if_false, Bool.false_eq_true]
        simp)
    · simp only [Node.keptValues, Node.compare_mk, Node.getAllChildValues_mk, optValues_none,
        optValues_some, Finset.empty_union, Finset.union_empty] at hcard'
      exact absurd h (by
        simp only [Node.rebalance, Node.compare_mk, Node.getAllChildValues_mk, optValues_none,
          optValues_some, Finset.empty_union, Finset.union_empty, Option.isSome_some,
          Option.isSome_none, Bool.or_true, Bool.true_or, Bool.false_or, Bool.or_false,
          Bool.or_self, hcard', if_true, if_false, Bool.false_eq_true]
        simp)
    · simp only [Node.keptValues, Node.compare_mk, Node.getAllChildValues_mk, optValues_none,
        optValues_some, Finset.empty_union, Finset.union_empty] at hcard'
      exact absurd h (by
        simp only [Node.rebalance, Node.compare_mk, Node.getAllChildValues_mk, optValues_none,
          optValues_some, Finset.empty_union, Finset.union_empty, Option.isSome_some,
          Option.isSome_none, Bool.or_true, Bool.true_or, Bool.false_or, Bool.or_false,
          Bool.or_self, hcard', if_true, if_false, Bool.false_eq_true]
        simp)
    · simp only [Node.keptValues, Node.compare_mk, Node.getAllChildValues_mk, optValues_none,
        optValues_some, Finset.empty_union, Finset.union_empty] at hcard'
      exact absurd h (by
        simp only [Node.rebalance, Node.compare_mk, Node.getAllChildValues_mk, optValues_none,
          optValues_some, Finset.empty_union, Finset.union_empty, Option.isSome_some,
          Option.isSome_none, Bool.or_true, Bool.true_or, Bool.false_or, Bool.or_false,
          Bool.or_self, hcard', if_true, if_false, Bool.false_eq_true]
        simp)
    · -- all four children present: the branch path
      by_cases hsub : Node.shouldSubdivide s
          ((Node.mk c (some cul) (some cur) (some cll) (some clr) d).keptValues s)
          (s.buildQuadrantsFromData c
            ((Node.mk c (some cul) (some cur) (some cll) (some clr) d).keptValues s)) = true
      · rw [Node.rebalance_branch_subdiv s fuel c cul cur cll clr d hcard hsub] at h
        refine Or.inr ⟨hcard, hsub, ?_⟩
        simpa only [quadBase, childOrNew, Node.compare_mk, Node.ul_mk, Node.ur_mk, Node.ll_mk,
          Node.lr_mk] using h
      · rw [Bool.not_eq_true] at hsub
        rw [Node.rebalance_branch_noSubdiv s fuel c cul cur cll clr d hcard hsub] at h
        exact Or.inl ⟨Or.inr hsub, (Option.some.inj h).symm⟩

@[simp] theorem leafNode_compare (c : R) (d : Finset V) : (leafNode c d : Node V R).compare = c :=
  rfl

@[simp] theorem leafNode_ul (c : R) (d : Finset V) : (leafNode c d : Node V R).ul = none := rfl

@[simp] theorem leafNode_ur (c : R) (d : Finset V) : (leafNode c d : Node V R).ur = none := rfl

@[simp] theorem leafNode_ll (c : R) (d : Finset V) : (leafNode c d : Node V R).ll = none := rfl

@[simp] theorem leafNode_lr (c : R) (d : Finset V) : (leafNode c d : Node V R).lr = none := rfl

@[simp] theorem leafNode_data (c : R) (d : Finset V) : (leafNode c d : Node V R).data = d := rfl

@[simp] theorem leafNode_allValues (c : R) (d : Finset V) :
    (leafNode c d : Node V R).getAllChildValues = d := by
  simp [leafNode]

theorem leafNode_eq (c : R) (d : Finset V) :
    (leafNode c d : Node V R) = Node.mk c none none none none d := rfl

theorem childOrNew_compare (qc : R) (o : Option (Node V R)) : (childOrNew qc o).compare = qc := by
  cases o with
  | none => rfl
  | some k => exact Node.setCompare_compare qc k

theorem childOrNew_allValues (qc : R) (o : Option (Node V R)) :
    (childOrNew qc o).getAllChildValues = optValues o := by
  cases o with
  | none => simp [childOrNew]
  | some k => exact Node.setCompare_allValues qc k

theorem quadBase_compare (s : Strategy V R) (n : Node V R) : (quadBase s n).compare = n.compare :=
  rfl

theorem quadBase_allValues (s : Strategy V R) (n : Node V R) :
    (quadBase s n).getAllChildValues ⊆ n.getAllChildValues := by
  rw [quadBase, Node.getAllChildValues_mk]
  simp only [optValues_some, childOrNew_allValues, Finset.union_empty]
  intro x hx
  simp only [Finset.mem_union] at hx
  rcases hx with ((h1 | h2) | h3) | h4
  · exact optValues_ul_subset n h1
  · exact optValues_ur_subset n h2
  · exact optValues_ll_subset n h3
  · exact optValues_lr_subset n h4

theorem Node.keptValues_subset (s : Strategy V R) (n : Node V R) :
    n.keptValues s ⊆ n.getAllChildValues := Finset.filter_subset _ _

/-- A successful rebalance never changes the node's own region. -/
theorem Node.rebalance_compare (s : Strategy V R) :
    ∀ fuel (n m : Node V R), Node.rebalance s fuel n = some m → m.compare = n.compare := by
  intro fuel
  induction fuel with
  | zero => intro n m h; exact Option.noConfusion h
  | succ fuel ih =>
      intro n m h
      rcases Node.rebalance_succ_inv h with ⟨_, rfl⟩ | ⟨hcard, hsub, hkids⟩
      · rfl
      · obtain ⟨ul', ur', ll', lr', _, _, _, _, rfl⟩ := Node.rebalanceKids_inv hkids
        rw [Node.compare_mk, Node.addAll_compare, quadBase_compare]

theorem slot_subset (s : Strategy V R) (fuel : ℕ) {o x : Option (Node V R)}
    (IH : ∀ n m : Node V R, Node.rebalance s fuel n = some m →
      m.getAllChildValues ⊆ n.getAllChildValues)
    (hx : rebOpt s fuel o = some x) : optValues x ⊆ optValues o := by
  rcases rebOpt_some_inv hx with ⟨rfl, rfl⟩ | ⟨k, k', rfl, hreb, rfl⟩
  · exact Finset.Subset.refl _
  · simpa using IH k k' hreb

/-- A rebalanced subtree holds no values beyond those it previously held. -/
theorem Node.rebalance_subset (s : Strategy V R) :
    ∀ fuel (n m : Node V R), Node.rebalance s fuel n = some m →
      m.getAllChildValues ⊆ n.getAllChildValues := by
  intro fuel
  induction fuel with
  | zero => intro n m h; exact Option.noConfusion h
  | succ fuel ih =>
      intro n m h
      rcases Node.rebalance_succ_inv h with ⟨_, rfl⟩ | ⟨hcard, hsub, hkids⟩
      · simpa using Node.keptValues_subset s n
      · obtain ⟨ul', ur', ll', lr', h1, h2, h3, h4, rfl⟩ := Node.rebalanceKids_inv hkids
        have hbase : (Node.addAll s (n.keptValues s) (quadBase s n)).getAllChildValues ⊆
            n.getAllChildValues := by
          rw [Node.allValues_addAll]
          exact Finset.union_subset (quadBase_allValues s n) (Node.keptValues_subset s n)
        intro x hx
        rw [Node.getAllChildValues_mk] at hx
        simp only [Finset.mem_union] at hx
        apply hbase
        rw [Node.av_decomp]
        simp only [Finset.mem_union]
        rcases hx with ((((hh | hh) | hh) | hh) | hh)
        · exact Or.inl (Or.inl (Or.inl (Or.inl (slot_subset s fuel ih h1 hh))))
        · exact Or.inl (Or.inl (Or.inl (Or.inr (slot_subset s fuel ih h2 hh))))
        · exact Or.inl (Or.inl (Or.inr (slot_subset s fuel ih h3 hh)))
        · exact Or.inl (Or.inr (slot_subset s fuel ih h4 hh))
        · exact Or.inr hh

theorem Node.addAll_ul (s : Strategy V R) (vals : Finset V) (n : Node V R) :
    (n.addAll s vals).ul = (sortedList vals).foldl (fun o v => addOpt s v o) n.ul :=
  foldl_add_ul s _ n

theorem Node.addAll_ur (s : Strategy V R) (vals : Finset V) (n : Node V R) :
    (n.addAll s vals).ur = (sortedList vals).foldl (fun o v => addOpt s v o) n.ur :=
  foldl_add_ur s _ n

theorem Node.addAll_ll (s : Strategy V R) (vals : Finset V) (n : Node V R) :
    (n.addAll s vals).ll = (sortedList vals).foldl (fun o v => addOpt s v o) n.ll :=
  foldl_add_ll s _ n

theorem Node.addAll_lr (s : Strategy V R) (vals : Finset V) (n : Node V R) :
    (n.addAll s vals).lr = (sortedList vals).foldl (fun o v => addOpt s v o) n.lr :=
  foldl_add_lr s _ n

theorem slot_absorb (s : Strategy V R) (fuel : ℕ) (vals : Finset V) (b : Node V R)
    {x : Option (Node V R)}
    (IH : ∀ n m : Node V R, Node.rebalance s fuel n = some m →
      n.keptValues s ⊆ m.getAllChildValues)
    (hx : rebOpt s fuel ((sortedList vals).foldl (fun o v => addOpt s v o) (some b)) = some x)
    {v : V} (hv : v ∈ vals) (hsat : s.satisfies b.compare v = true) :
    v ∈ optValues x := by
  rw [foldl_addOpt_some] at hx
  rcases rebOpt_some_inv hx with ⟨hnone, _⟩ | ⟨k, k', hk, hreb, rfl⟩
  · exact Option.noConfusion hnone
  · have hkk := Option.some.inj hk
    have hvk : v ∈ k.keptValues s := by
      rw [Node.keptValues, Finset.mem_filter, ← hkk]
      constructor
      · exact foldl_condAdd_mem s _ b v (mem_sortedList.mpr hv) hsat
      · rw [foldl_condAdd_compare]; exact hsat
    simpa using IH k k' hreb hvk

/-- A rebalanced subtree keeps every value that survives the region check. -/
theorem Node.rebalance_superset (s : Strategy V R) :
    ∀ fuel (n m : Node V R), Node.rebalance s fuel n = some m →
      n.keptValues s ⊆ m.getAllChildValues := by
  intro fuel
  induction fuel with
  | zero => intro n m h; exact Option.noConfusion h
  | succ fuel ih =>
      intro n m h
      rcases Node.rebalance_succ_inv h with ⟨_, rfl⟩ | ⟨hcard, hsub, hkids⟩
      · simp
      · obtain ⟨ul', ur', ll', lr', h1, h2, h3, h4, rfl⟩ := Node.rebalanceKids_inv hkids
        intro v hv
        rw [Node.getAllChildValues_mk]
        simp only [Finset.mem_union]
        rw [Node.addAll_ul] at h1
        rw [Node.addAll_ur] at h2
        rw [Node.addAll_ll] at h3
        rw [Node.addAll_lr] at h4
        by_cases ha : anyAccepts s v (quadBase s n) = true
        · -- some quadrant child accepted the value during the re-add
          rw [anyAccepts] at ha
          simp only [quadBase, Node.ul_mk, Node.ur_mk, Node.ll_mk, Node.lr_mk, acceptsOpt,
            childOrNew_compare, Bool.or_eq_true] at ha
          simp only [quadBase, Node.ul_mk, Node.ur_mk, Node.ll_mk, Node.lr_mk] at h1 h2 h3 h4
          rcases ha with ((ha | ha) | ha) | ha
          · refine Or.inl (Or.inl (Or.inl (Or.inl ?_)))
            exact slot_absorb s fuel _ _ ih h1 hv (by rw [childOrNew_compare]; exact ha)
          · refine Or.inl (Or.inl (Or.inl (Or.inr ?_)))
            exact slot_absorb s fuel _ _ ih h2 hv (by rw [childOrNew_compare]; exact ha)
          · refine Or.inl (Or.inl (Or.inr ?_))
            exact slot_absorb s fuel _ _ ih h3 hv (by rw [childOrNew_compare]; exact ha)
          · refine Or.inl (Or.inr ?_)
            exact slot_absorb s fuel _ _ ih h4 hv (by rw [childOrNew_compare]; exact ha)
        · -- no quadrant child accepted: the value is retained as an orphan
          refine Or.inr ?_
          rw [Node.addAll_data]
          refine Finset.mem_union_right _ ?_
          rw [List.mem_toFinset, List.mem_filter]
          exact ⟨mem_sortedList.mpr hv, by simp [ha]⟩

/-- After a successful rebalance, filtering by the node's own region recovers
exactly the surviving set. -/
theorem Node.rebalance_keptValues (s : Strategy V R) (fuel : ℕ) (n m : Node V R)
    (h : Node.rebalance s fuel n = some m) : m.keptValues s = n.keptValues s := by
  have hc := Node.rebalance_compare s fuel n m h
  ext v
  simp only [Node.keptValues, Finset.mem_filter, hc]
  constructor
  · rintro ⟨hv, hs⟩
    exact ⟨Node.rebalance_subset s fuel n m h hv, hs⟩
  · rintro ⟨hv, hs⟩
    refine ⟨Node.rebalance_superset s fuel n m h ?_, hs⟩
    simp only [Node.keptValues, Finset.mem_filter]
    exact ⟨hv, hs⟩

theorem slot_add_id (s : Strategy V R) (fuel : ℕ) (vals : Finset V) (b : Node V R)
    {x : Option (Node V R)}
    (IH : ∀ n m : Node V R, Node.rebalance s fuel n = some m →
      ∀ v : V, s.satisfies m.compare v = true → v ∈ n.getAllChildValues → m.add s v = m)
    (hx : rebOpt s fuel ((sortedList vals).foldl (fun o v => addOpt s v o) (some b)) = some x)
    {v : V} (hv : v ∈ vals) :
    addOpt s v x = x ∧ ∃ k', x = some k' ∧ k'.compare = b.compare := by
  rw [foldl_addOpt_some] at hx
  rcases rebOpt_some_inv hx with ⟨hnone, _⟩ | ⟨k, k', hk, hreb, rfl⟩
  · exact Option.noConfusion hnone
  · have hkk : ((sortedList vals).foldl (fun k v => condAdd s v k) b) = k := Option.some.inj hk
    have hcomp : k'.compare = b.compare := by
      rw [Node.rebalance_compare s fuel k k' hreb, ← hkk, foldl_condAdd_compare]
    refine ⟨?_, k', rfl, hcomp⟩
    rw [addOpt_some]
    by_cases hsat : s.satisfies k'.compare v = true
    · rw [if_pos hsat]
      have hmem : v ∈ k.getAllChildValues := by
        rw [← hkk]
        exact foldl_condAdd_mem s _ b v (mem_sortedList.mpr hv) (by rw [← hcomp]; exact hsat)
      rw [IH k k' hreb v hsat hmem]
    · rw [if_neg hsat]

/-- Re-adding a value that a rebalanced subtree already absorbed (its region
satisfies the value, and the value was reachable before the rebalance) leaves
the subtree unchanged. -/
theorem Node.rebalance_add_id (s : Strategy V R) :
    ∀ fuel (n m : Node V R), Node.rebalance s fuel n = some m →
      ∀ v : V, s.satisfies m.compare v = true → v ∈ n.getAllChildValues → m.add s v = m := by
  intro fuel
  induction fuel with
  | zero => intro n m h; exact Option.noConfusion h
  | succ fuel ih =>
      intro n m h v hsatv hvin
      rcases Node.rebalance_succ_inv h with ⟨_, rfl⟩ | ⟨hcard, hsub, hkids⟩
      · -- the node became a leaf: the value is already in the local set
        have hv : v ∈ n.keptValues s := by
          rw [Node.keptValues, Finset.mem_filter]
          exact ⟨hvin, by rwa [leafNode_compare] at hsatv⟩
        rw [Node.add_eq]
        have hany : anyAccepts s v (leafNode n.compare (n.keptValues s)) = false := rfl
        simp only [leafNode_compare, leafNode_ul, leafNode_ur, leafNode_ll, leafNode_lr,
          leafNode_data, addOpt_none, hany, Bool.false_eq_true, if_false]
        rw [Finset.insert_eq_self.mpr hv]
        rfl
      · -- the node subdivided: each accepting child already absorbed the value
        obtain ⟨ul', ur', ll', lr', h1, h2, h3, h4, rfl⟩ := Node.rebalanceKids_inv hkids
        rw [Node.addAll_ul] at h1
        rw [Node.addAll_ur] at h2
        rw [Node.addAll_ll] at h3
        rw [Node.addAll_lr] at h4
        simp only [quadBase, Node.ul_mk, Node.ur_mk, Node.ll_mk, Node.lr_mk] at h1 h2 h3 h4
        have hvv : v ∈ n.keptValues s := by
          rw [Node.keptValues, Finset.mem_filter]
          refine ⟨hvin, ?_⟩
          rwa [Node.compare_mk, Node.addAll_compare, quadBase_compare] at hsatv
        obtain ⟨e1, k1, hk1, hc1⟩ := slot_add_id s fuel _ _ ih h1 hvv
        obtain ⟨e2, k2, hk2, hc2⟩ := slot_add_id s fuel _ _ ih h2 hvv
        obtain ⟨e3, k3, hk3, hc3⟩ := slot_add_id s fuel _ _ ih h3 hvv
        obtain ⟨e4, k4, hk4, hc4⟩ := slot_add_id s fuel _ _ ih h4 hvv
        rw [Node.add_eq]
        simp only [Node.compare_mk, Node.ul_mk, Node.ur_mk, Node.ll_mk, Node.lr_mk, Node.data_mk,
          e1, e2, e3, e4]
        have haq : anyAccepts s v
            (Node.mk (Node.addAll s (n.keptValues s) (quadBase s n)).compare ul' ur' ll' lr'
              (Node.addAll s (n.keptValues s) (quadBase s n)).data) =
            anyAccepts s v (quadBase s n) := by
          rw [anyAccepts, anyAccepts]
          simp only [Node.ul_mk, Node.ur_mk, Node.ll_mk, Node.lr_mk, quadBase, hk1, hk2, hk3, hk4,
            acceptsOpt, hc1, hc2, hc3, hc4, childOrNew_compare]
        rw [haq]
        by_cases ha : anyAccepts s v (quadBase s n) = true
        · simp only [ha, if_true]
        · simp only [ha, Bool.false_eq_true, if_false]
          rw [Bool.not_eq_true] at ha
          have hvD : v ∈ (Node.addAll s (n.keptValues s) (quadBase s n)).data := by
            rw [Node.addAll_data]
            refine Finset.mem_union_right _ ?_
            rw [List.mem_toFinset, List.mem_filter]
            exact ⟨mem_sortedList.mpr hvv, by simp [ha]⟩
          rw [Finset.insert_eq_self.mpr hvD]

theorem foldl_condAdd_fixed (s : Strategy V R) (l : List V) (k : Node V R)
    (hfix : ∀ v ∈ l, condAdd s v k = k) :
    l.foldl (fun k v => condAdd s v k) k = k := by
  induction l with
  | nil => rfl
  | cons w tl ih =>
      simp only [List.foldl_cons]
      rw [hfix w (List.mem_cons_self w tl)]
      exact ih (fun v hv => hfix v (List.mem_cons_of_mem w hv))

theorem slot_stab (s : Strategy V R) (fuel : ℕ) (K : Finset V) (b : Node V R)
    {x : Option (Node V R)}
    (IH : ∀ n m : Node V R, Node.rebalance s fuel n = some m → Node.rebalance s fuel m = some m)
    (hx : rebOpt s fuel ((sortedList K).foldl (fun o v => addOpt s v o) (some b)) = some x) :
    ∃ k', x = some k' ∧ k'.compare = b.compare ∧ Node.rebalance s fuel k' = some k' ∧
      (sortedList K).foldl (fun o v => addOpt s v o) (some k') = some k' := by
  rw [foldl_addOpt_some] at hx
  rcases rebOpt_some_inv hx with ⟨hnone, _⟩ | ⟨k, k', hk, hreb, rfl⟩
  · exact Option.noConfusion hnone
  · have hkk : ((sortedList K).foldl (fun k v => condAdd s v k) b) = k := Option.some.inj hk
    have hcomp : k'.compare = b.compare := by
      rw [Node.rebalance_compare s fuel k k' hreb, ← hkk, foldl_condAdd_compare]
    have hfix : ∀ v ∈ sortedList K, condAdd s v k' = k' := by
      intro v hv
      rw [condAdd]
      by_cases hsat : s.satisfies k'.compare v = true
      · rw [if_pos hsat]
        have hmem : v ∈ k.getAllChildValues := by
          rw [← hkk]
          exact foldl_condAdd_mem s _ b v hv (by rw [← hcomp]; exact hsat)
        exact Node.rebalance_add_id s fuel k k' hreb v hsat hmem
      · rw [if_neg hsat]
    refine ⟨k', rfl, hcomp, IH k k' hreb, ?_⟩
    rw [foldl_addOpt_some, foldl_condAdd_fixed s _ k' hfix]

/-- Rebalancing is stable at the node level: rebalancing the result of a
successful rebalance (with the same fuel) reproduces it exactly. -/
theorem Node.rebalance_idem (s : Strategy V R) :
    ∀ fuel (n m : Node V R), Node.rebalance s fuel n = some m →
      Node.rebalance s fuel m = some m := by
  intro fuel
  induction fuel with
  | zero => intro n m h; exact Option.noConfusion h
  | succ fuel ih =>
      intro n m h
      have hkept := Node.rebalance_keptValues s (fuel + 1) n m h
      rcases Node.rebalance_succ_inv h with ⟨hwhy, rfl⟩ | ⟨hcard, hsub, hkids⟩
      · -- result is a leaf holding the surviving set
        by_cases hcard : (n.keptValues s).card ≤ g_minDataSize
        · rw [Node.rebalance_small s fuel _ (by rw [hkept]; exact hcard)]
          rw [hkept, leafNode_compare]
        · have hsubF : Node.shouldSubdivide s (n.keptValues s)
              (s.buildQuadrantsFromData n.compare (n.keptValues s)) = false := by
            rcases hwhy with hc | hs
            · exact absurd hc hcard
            · exact hs
          simp only [leafNode_eq] at hkept ⊢
          rw [Node.rebalance_leaf_noSubdiv s fuel n.compare (n.keptValues s)
            (by rw [hkept]; exact hcard) (by rw [hkept]; exact hsubF)]
          simp only [leafNode_eq]
          rw [hkept]
      · -- result is a branch: children are stable, the re-add is absorbed
        obtain ⟨ul', ur', ll', lr', h1, h2, h3, h4, rfl⟩ := Node.rebalanceKids_inv hkids
        rw [Node.addAll_ul] at h1
        rw [Node.addAll_ur] at h2
        rw [Node.addAll_ll] at h3
        rw [Node.addAll_lr] at h4
        simp only [quadBase, Node.ul_mk, Node.ur_mk, Node.ll_mk, Node.lr_mk] at h1 h2 h3 h4
        obtain ⟨k1, rfl, hc1, hs1, hf1⟩ := slot_stab s fuel _ _ ih h1
        obtain ⟨k2, rfl, hc2, hs2, hf2⟩ := slot_stab s fuel _ _ ih h2
        obtain ⟨k3, rfl, hc3, hs3, hf3⟩ := slot_stab s fuel _ _ ih h3
        obtain ⟨k4, rfl, hc4, hs4, hf4⟩ := slot_stab s fuel _ _ ih h4
        rw [childOrNew_compare] at hc1 hc2 hc3 hc4
        set K := n.keptValues s with hK
        set D := (Node.addAll s K (quadBase s n)).data with hD
        set C := (Node.addAll s K (quadBase s n)).compare with hC
        have hCn : C = n.compare := by rw [hC, Node.addAll_compare, quadBase_compare]
        -- the second pass sees the same surviving set and the same quadrants
        have hkm : (Node.mk C (some k1) (some k2) (some k3) (some k4) D).keptValues s = K := hkept
        have hcard2 : ¬ ((Node.mk C (some k1) (some k2) (some k3) (some k4) D).keptValues s).card ≤
            g_minDataSize := by rw [hkm]; exact hcard
        have hsub2 : Node.shouldSubdivide s
            ((Node.mk C (some k1) (some k2) (some k3) (some k4) D).keptValues s)
            (s.buildQuadrantsFromData C
              ((Node.mk C (some k1) (some k2) (some k3) (some k4) D).keptValues s)) = true := by
          rw [hkm, hCn]; exact hsub
        rw [Node.rebalance_branch_subdiv s fuel C k1 k2 k3 k4 D hcard2 hsub2]
        simp only [hkm]
        simp only [hCn]
        -- the children's regions are already the candidate quadrants
        rw [← hc1, ← hc2, ← hc3, ← hc4, Node.setCompare_self, Node.setCompare_self,
          Node.setCompare_self, Node.setCompare_self]
        -- the re-added node is the branch node itself, component by component
        have hN2c : (Node.addAll s K (Node.mk n.compare (some k1) (some k2) (some k3) (some k4)
            ∅)).compare = C := by rw [Node.addAll_compare, Node.compare_mk, hCn]
        have hN2ul : (Node.addAll s K (Node.mk n.compare (some k1) (some k2) (some k3) (some k4)
            ∅)).ul = some k1 := by rw [Node.addAll_ul, Node.ul_mk]; exact hf1
        have hN2ur : (Node.addAll s K (Node.mk n.compare (some k1) (some k2) (some k3) (some k4)
            ∅)).ur = some k2 := by rw [Node.addAll_ur, Node.ur_mk]; exact hf2
        have hN2ll : (Node.addAll s K (Node.mk n.compare (some k1) (some k2) (some k3) (some k4)
            ∅)).ll = some k3 := by rw [Node.addAll_ll, Node.ll_mk]; exact hf3
        have hN2lr : (Node.addAll s K (Node.mk n.compare (some k1) (some k2) (some k3) (some k4)
            ∅)).lr = some k4 := by rw [Node.addAll_lr, Node.lr_mk]; exact hf4
        have hacc : ∀ v : V, anyAccepts s v (Node.mk n.compare (some k1) (some k2) (some k3)
            (some k4) ∅) = anyAccepts s v (quadBase s n) := by
          intro v
          rw [anyAccepts, anyAccepts]
          simp only [Node.ul_mk, Node.ur_mk, Node.ll_mk, Node.lr_mk, quadBase, acceptsOpt,
            hc1, hc2, hc3, hc4, childOrNew_compare]
        have hN2d : (Node.addAll s K (Node.mk n.compare (some k1) (some k2) (some k3) (some k4)
            ∅)).data = D := by
          rw [Node.addAll_data, Node.data_mk, Finset.empty_union, hD, Node.addAll_data]
          have hqb : (quadBase s n).data = ∅ := rfl
          rw [hqb, Finset.empty_union]
          congr 1
          apply List.filter_congr
          intro v _
          rw [hacc v]
        rw [Node.rebalanceKids, hN2ul, hN2ur, hN2ll, hN2lr]
        simp only [rebOpt_some, hs1, hs2, hs3, hs4, Option.map_some', Option.bind_eq_bind',
          Option.some_bind, hN2c, hN2d]
        rw [hCn]

@[simp] theorem optSubtree_none : optSubtree (V := V) (R := R) none = [] := rfl

@[simp] theorem optSubtree_some (n : Node V R) : optSubtree (some n) = n.subtreeNodes := rfl

theorem Node.subtreeNodes_mk (c : R) (ul ur ll lr : Option (Node V R)) (d : Finset V) :
    (Node.mk c ul ur ll lr d).subtreeNodes =
      Node.mk c ul ur ll lr d ::
        (optSubtree ul ++ optSubtree ur ++ optSubtree ll ++ optSubtree lr) := by
  rw [Node.subtreeNodes]

theorem optNearby_iff (s : Strategy V R) (test : R) (v : V) (o : Option (Node V R))
    (IH : ∀ k, o = some k → ∀ w : V,
      w ∈ k.getNearbyValues s test ↔
        ∃ m ∈ k.subtreeNodes, s.overlaps m.compare test = true ∧ w ∈ m.data) :
    v ∈ optNearby s test o ↔
      ∃ m ∈ optSubtree o, s.overlaps m.compare test = true ∧ v ∈ m.data := by
  cases o with
  | none => simp
  | some k => simpa using IH k rfl v

theorem nearby_iff_nodes (s : Strategy V R) (test : R) :
    ∀ n : Node V R, ∀ v : V,
      v ∈ n.getNearbyValues s test ↔
        ∃ m ∈ n.subtreeNodes, s.overlaps m.compare test = true ∧ v ∈ m.data := by
  intro n
  induction n using Node.myRec with
  | h c ul ur ll lr d hul hur hll hlr =>
    intro v
    rw [Node.getNearbyValues_mk, Node.subtreeNodes_mk]
    simp only [Finset.mem_union]
    rw [optNearby_iff s test v ul hul, optNearby_iff s test v ur hur,
      optNearby_iff s test v ll hll, optNearby_iff s test v lr hlr]
    by_cases ho : s.overlaps c test = true
    · simp only [ho, if_true]
      constructor
      · rintro ((((⟨m, hm, hmo, hmd⟩ | ⟨m, hm, hmo, hmd⟩) | ⟨m, hm, hmo, hmd⟩) |
          ⟨m, hm, hmo, hmd⟩) | hv)
        · exact ⟨m, by simp [hm], hmo, hmd⟩
        · exact ⟨m, by simp [hm], hmo, hmd⟩
        · exact ⟨m, by simp [hm], hmo, hmd⟩
        · exact ⟨m, by simp [hm], hmo, hmd⟩
        · exact ⟨Node.mk c ul ur ll lr d, by simp, ho, by simpa using hv⟩
      · rintro ⟨m, hm, hmo, hmd⟩
        rcases List.mem_cons.mp hm with rfl | hm'
        · exact Or.inr (by simpa using hmd)
        · simp only [List.mem_append] at hm'
          rcases hm' with ((h1 | h2) | h3) | h4
          · exact Or.inl (Or.inl (Or.inl (Or.inl ⟨m, h1, hmo, hmd⟩)))
          · exact Or.inl (Or.inl (Or.inl (Or.inr ⟨m, h2, hmo, hmd⟩)))
          · exact Or.inl (Or.inl (Or.inr ⟨m, h3, hmo, hmd⟩))
          · exact Or.inl (Or.inr ⟨m, h4, hmo, hmd⟩)
    · simp only [ho, Bool.false_eq_true, if_false, Finset.not_mem_empty, or_false]
      constructor
      · rintro (((⟨m, hm, hmo, hmd⟩ | ⟨m, hm, hmo, hmd⟩) | ⟨m, hm, hmo, hmd⟩) |
          ⟨m, hm, hmo, hmd⟩)
        · exact ⟨m, by simp [hm], hmo, hmd⟩
        · exact ⟨m, by simp [hm], hmo, hmd⟩
        · exact ⟨m, by simp [hm], hmo, hmd⟩
        · exact ⟨m, by simp [hm], hmo, hmd⟩
      · rintro ⟨m, hm, hmo, hmd⟩
        rcases List.mem_cons.mp hm with rfl | hm'
        · exact absurd (by simpa using hmo) ho
        · simp only [List.mem_append] at hm'
          rcases hm' with ((h1 | h2) | h3) | h4
          · exact Or.inl (Or.inl (Or.inl ⟨m, h1, hmo, hmd⟩))
          · exact Or.inl (Or.inl (Or.inr ⟨m, h2, hmo, hmd⟩))
          · exact Or.inl (Or.inr ⟨m, h3, hmo, hmd⟩)
          · exact Or.inr ⟨m, h4, hmo, hmd⟩

theorem new_tree_query_empty (s : Strategy V R) (test : R) :
    (SearchTree2D.new s).getNearbyValues s test = ∅ := by
  rw [SearchTree2D.getNearbyValues, SearchTree2D.new, Node.new, Node.getNearbyValues_mk]
  simp

/-- C1: `getNearbyValues` returns exactly the union, over the nodes of the
tree whose region overlaps the test region (per the strategy's `overlaps`),
of those nodes' local value sets — duplicates merged by set semantics; and a
freshly constructed (empty) tree answers every query with the empty set. -/
theorem getNearbyValues_eq_union_of_overlapping_nodes :
    ∀ (s : Strategy V R) (n : Node V R) (test : R) (v : V),
      (v ∈ n.getNearbyValues s test ↔
        ∃ m ∈ n.subtreeNodes, s.overlaps m.compare test = true ∧ v ∈ m.data) ∧
      (SearchTree2D.new s).getNearbyValues s test = ∅ := by
  intro s n test v
  exact ⟨nearby_iff_nodes s test n v, new_tree_query_empty s test⟩

theorem Node.hasChildren_false (n : Node V R) (h : n.hasChildren = false) :
    n.ul = none ∧ n.ur = none ∧ n.ll = none ∧ n.lr = none := by
  rcases n with ⟨c, ul, ur, ll, lr, d⟩
  simp only [Node.hasChildren_mk, Bool.or_eq_false_iff] at h
  obtain ⟨⟨⟨h1, h2⟩, h3⟩, h4⟩ := h
  exact ⟨Option.not_isSome_iff_eq_none.mp (by simp [h1]),
    Option.not_isSome_iff_eq_none.mp (by simp [h2]),
    Option.not_isSome_iff_eq_none.mp (by simp [h3]),
    Option.not_isSome_iff_eq_none.mp (by simp [h4])⟩

/-- C2: `add` hands the value to every non-null child whose region satisfies
it (a child whose region does not satisfy the value is left untouched), keeps
the node's own region, and stores the value in the local set exactly when no
child accepted it; a node without children always stores it locally. -/
theorem add_distributes_to_satisfying_children :
    ∀ (s : Strategy V R) (v : V) (n : Node V R),
      ((n.add s v).compare = n.compare) ∧
      (∀ k, n.ul = some k →
        (n.add s v).ul = some (if s.satisfies k.compare v = true then k.add s v else k)) ∧
      (∀ k, n.ur = some k →
        (n.add s v).ur = some (if s.satisfies k.compare v = true then k.add s v else k)) ∧
      (∀ k, n.ll = some k →
        (n.add s v).ll = some (if s.satisfies k.compare v = true then k.add s v else k)) ∧
      (∀ k, n.lr = some k →
        (n.add s v).lr = some (if s.satisfies k.compare v = true then k.add s v else k)) ∧
      ((n.add s v).data = if anyAccepts s v n = true then n.data else insert v n.data) ∧
      (n.hasChildren = false →
        n.add s v = Node.mk n.compare n.ul n.ur n.ll n.lr (insert v n.data)) := by
  intro s v n
  refine ⟨Node.add_compare s v n, ?_, ?_, ?_, ?_, Node.add_data s v n, ?_⟩
  · intro k hk
    rw [Node.add_ul, hk, addOpt_some]
    by_cases hs : s.satisfies k.compare v = true <;> simp [hs]
  · intro k hk
    rw [Node.add_ur, hk, addOpt_some]
    by_cases hs : s.satisfies k.compare v = true <;> simp [hs]
  · intro k hk
    rw [Node.add_ll, hk, addOpt_some]
    by_cases hs : s.satisfies k.compare v = true <;> simp [hs]
  · intro k hk
    rw [Node.add_lr, hk, addOpt_some]
    by_cases hs : s.satisfies k.compare v = true <;> simp [hs]
  · intro hnc
    obtain ⟨h1, h2, h3, h4⟩ := Node.hasChildren_false n hnc
    rw [Node.add_eq, h1, h2, h3, h4]
    have : anyAccepts s v n = false := by
      rw [anyAccepts, h1, h2, h3, h4]; rfl
    rw [this]
    rfl

/-- C5: `remove` recurses into every non-null child unconditionally and al-
ways erases the value from the local set; removing an absent value is a
no-op; and after `remove v` no query, with any test region, returns `v`. -/
theorem remove_erases_everywhere :
    ∀ (v : V) (n : Node V R) (s : Strategy V R) (test : R),
      ((n.remove v).compare = n.compare ∧
        (∀ k, n.ul = some k → (n.remove v).ul = some (k.remove v)) ∧
        (∀ k, n.ur = some k → (n.remove v).ur = some (k.remove v)) ∧
        (∀ k, n.ll = some k → (n.remove v).ll = some (k.remove v)) ∧
        (∀ k, n.lr = some k → (n.remove v).lr = some (k.remove v)) ∧
        (n.remove v).data = n.data.erase v) ∧
      (v ∉ n.getAllChildValues → n.remove v = n) ∧
      v ∉ (n.remove v).getNearbyValues s test := by
  intro v n s test
  refine ⟨⟨?_, ?_, ?_, ?_, ?_, ?_⟩, Node.remove_noop v n, ?_⟩
  · rcases n with ⟨c, ul, ur, ll, lr, d⟩; rfl
  · intro k hk; rcases n with ⟨c, ul, ur, ll, lr, d⟩
    rw [Node.remove_mk, Node.ul_mk]
    rw [Node.ul_mk] at hk
    rw [hk]; rfl
  · intro k hk; rcases n with ⟨c, ul, ur, ll, lr, d⟩
    rw [Node.remove_mk, Node.ur_mk]
    rw [Node.ur_mk] at hk
    rw [hk]; rfl
  · intro k hk; rcases n with ⟨c, ul, ur, ll, lr, d⟩
    rw [Node.remove_mk, Node.ll_mk]
    rw [Node.ll_mk] at hk
    rw [hk]; rfl
  · intro k hk; rcases n with ⟨c, ul, ur, ll, lr, d⟩
    rw [Node.remove_mk, Node.lr_mk]
    rw [Node.lr_mk] at hk
    rw [hk]; rfl
  · rcases n with ⟨c, ul, ur, ll, lr, d⟩; rfl
  · intro hmem
    have h1 := Node.nearby_subset_allValues s test (n.remove v) hmem
    rw [Node.allValues_remove] at h1
    exact Finset.not_mem_erase v _ h1

theorem Node.clear_eq (n : Node V R) :
    n.clear = Node.mk n.compare none none none none ∅ := by
  rcases n with ⟨c, ul, ur, ll, lr, d⟩; rfl

/-- C8: after `clear()` the node graph is a single empty leaf (all children
discarded, local set emptied), and the cleared tree answers every query with
the empty set, exactly like a freshly constructed tree. -/
theorem clear_empties_tree :
    ∀ (s : Strategy V R) (t : SearchTree2D V R) (test : R),
      t.clear.m_tree = Node.mk t.m_tree.compare none none none none ∅ ∧
      t.clear.getNearbyValues s test = ∅ ∧
      (SearchTree2D.new s).getNearbyValues s test = ∅ := by
  intro s t test
  refine ⟨Node.clear_eq t.m_tree, ?_, new_tree_query_empty s test⟩
  rw [SearchTree2D.getNearbyValues, SearchTree2D.clear]
  rw [Node.clear_eq t.m_tree, Node.getNearbyValues_mk]
  simp

theorem Node.copy_eq : ∀ n : Node V R, n.copy = n := by
  intro n
  induction n using Node.myRec with
  | h c ul ur ll lr d hul hur hll hlr =>
    rw [Node.copy]
    have e : ∀ (o : Option (Node V R)), (∀ k, o = some k → k.copy = k) → copyOpt o = o := by
      intro o ho
      cases o with
      | none => rfl
      | some k => rw [copyOpt, ho k rfl]
    rw [e ul hul, e ur hur, e ll hll, e lr hlr]

/-- C9: copying clones the entire node graph — the copy has exactly the same
region, children and local data at every node, hence identical query results;
in this value-level model trees share no mutable state, so operations on
either tree cannot change the other. -/
theorem copy_reproduces_tree :
    ∀ (t : SearchTree2D V R) (s : Strategy V R) (test : R),
      t.copy = t ∧ t.copy.m_tree = t.m_tree ∧
      t.copy.getNearbyValues s test = t.getNearbyValues s test := by
  intro t s test
  have h : t.copy = t := by
    rw [SearchTree2D.copy, Node.copy_eq]
  exact ⟨h, by rw [h], by rw [h]⟩

/-- C4, counterexample: for the tree built by inserting 0..4, rebalancing,
then inserting 5, the facade rebalance does *not* shrink the total value set
to the prior values satisfying the rebuilt root region: the root region drops
5, but the copy of 5 sitting inside the upper-left child survives because the
new quadrant region still accepts it.  The total set stays 0..5 while the
claim predicts 0..4. -/
theorem rebalance_total_not_filter_cex :
    ¬ (∀ t1 t' : SearchTree2D ℕ ℕ, cexA_t0.rebalance cexA 10 = some t1 →
        ((t1.add cexA 5).rebalance cexA 10) = some t' →
        t'.m_tree.getAllChildValues =
          (t1.add cexA 5).m_tree.getAllChildValues.filter
            (fun v => cexA.satisfies
              (cexA.buildRegionFromData ((t1.add cexA 5).m_tree.getAllChildValues)) v)) := by
  intro hcl
  have hfact : (cexA_t0.rebalance cexA 10).bind (fun t1 =>
      (((t1.add cexA 5).rebalance cexA 10)).map (fun t' =>
        (sortedList t'.m_tree.getAllChildValues,
         sortedList ((t1.add cexA 5).m_tree.getAllChildValues.filter
           (fun v => cexA.satisfies
             (cexA.buildRegionFromData ((t1.add cexA 5).m_tree.getAllChildValues)) v)))))
      = some ([0, 1, 2, 3, 4, 5], [0, 1, 2, 3, 4]) := by decide
  rcases h1 : cexA_t0.rebalance cexA 10 with _ | t1
  · rw [h1] at hfact
    exact Option.noConfusion hfact
  · rw [h1, Option.some_bind] at hfact
    rcases h2 : (t1.add cexA 5).rebalance cexA 10 with _ | t'
    · rw [h2] at hfact
      exact Option.noConfusion hfact
    · rw [h2, Option.map_some'] at hfact
      have heq := hcl t1 t' h1 h2
      rw [Option.some.injEq, Prod.mk.injEq] at hfact
      obtain ⟨ha, hb⟩ := hfact
      rw [heq, hb] at ha
      exact absurd ha (by decide)

/-- C4 (amended): (i) per node, a rebalance pass redistributes exactly the
reachable values that satisfy the node's own region — everything else it may
only drop, never invent; (ii) `add` and `remove` never lose any other value,
and queries never surface values that are not stored; (iii) consequently,
after the facade's `rebalance()` the total value set *contains* every prior
value satisfying the rebuilt root region and is *contained in* the prior
value set.  (The original claim's equality fails: stale copies of dropped
values may survive inside children, see the counterexample.) -/
theorem rebalance_discard_bounds (s : Strategy V R) (fuel : ℕ) (t t' : SearchTree2D V R)
    (h : SearchTree2D.rebalance s fuel t = some t') :
    (∀ (f : ℕ) (n m : Node V R), Node.rebalance s f n = some m →
      m.getAllChildValues ⊆ n.getAllChildValues ∧
      n.getAllChildValues.filter (fun v => s.satisfies n.compare v) ⊆ m.getAllChildValues) ∧
    (∀ (v : V) (n : Node V R) (test : R),
      (n.add s v).getAllChildValues = insert v n.getAllChildValues ∧
      (n.remove v).getAllChildValues = n.getAllChildValues.erase v ∧
      n.getNearbyValues s test ⊆ n.getAllChildValues) ∧
    (t.m_tree.getAllChildValues.filter
        (fun v => s.satisfies (s.buildRegionFromData t.m_tree.getAllChildValues) v)
      ⊆ t'.m_tree.getAllChildValues) ∧
    t'.m_tree.getAllChildValues ⊆ t.m_tree.getAllChildValues := by
  have hroot : ∃ m, Node.rebalance s fuel (t.m_tree.buildRootRegion s) = some m ∧
      t' = ⟨m⟩ := by
    rw [SearchTree2D.rebalance] at h
    rcases hr : Node.rebalance s fuel (t.m_tree.buildRootRegion s) with _ | m
    · rw [hr] at h; exact Option.noConfusion h
    · rw [hr, Option.map_some'] at h
      exact ⟨m, rfl, (Option.some.inj h).symm⟩
  obtain ⟨m, hm, rfl⟩ := hroot
  have hav : (t.m_tree.buildRootRegion s).getAllChildValues = t.m_tree.getAllChildValues := by
    rw [Node.buildRootRegion, Node.setCompare_allValues]
  have hcmp : (t.m_tree.buildRootRegion s).compare =
      s.buildRegionFromData t.m_tree.getAllChildValues := by
    rw [Node.buildRootRegion, Node.setCompare_compare]
  refine ⟨?_, ?_, ?_, ?_⟩
  · intro f n m' hreb
    exact ⟨Node.rebalance_subset s f n m' hreb,
      Node.rebalance_superset s f n m' hreb⟩
  · intro v n test
    exact ⟨Node.allValues_add s v n, Node.allValues_remove v n,
      Node.nearby_subset_allValues s test n⟩
  · have := Node.rebalance_superset s fuel _ m hm
    rw [Node.keptValues, hav, hcmp] at this
    exact this
  · have := Node.rebalance_subset s fuel _ m hm
    rw [hav] at this
    exact this

/-- C6, counterexample: with the deterministic strategy `cexB`, the first
facade rebalance drops the value 9 at the root; the second rebalance then
rebuilds a *different* root region from the shrunken value set, and that
region drops the value 0 as well — so the two rebalances give different
query results with no intervening mutation. -/
theorem rebalance_not_idempotent_cex :
    ¬ (∀ t1 t2 : SearchTree2D ℕ ℕ, cexB_t0.rebalance cexB 10 = some t1 →
        t1.rebalance cexB 10 = some t2 →
        ∀ test : ℕ, t2.getNearbyValues cexB test = t1.getNearbyValues cexB test) := by
  intro hcl
  have hfact : (cexB_t0.rebalance cexB 10).bind (fun t1 =>
      (t1.rebalance cexB 10).map (fun t2 =>
        (sortedList (t1.getNearbyValues cexB 0), sortedList (t2.getNearbyValues cexB 0))))
      = some ([0, 1, 2, 3], [1, 2, 3]) := by decide
  rcases h1 : cexB_t0.rebalance cexB 10 with _ | t1
  · rw [h1] at hfact
    exact Option.noConfusion hfact
  · rw [h1, Option.some_bind] at hfact
    rcases h2 : t1.rebalance cexB 10 with _ | t2
    · rw [h2] at hfact
      exact Option.noConfusion hfact
    · rw [h2, Option.map_some'] at hfact
      rw [Option.some.injEq, Prod.mk.injEq] at hfact
      obtain ⟨ha, hb⟩ := hfact
      rw [hcl t1 t2 h1 h2 0, ha] at hb
      exact absurd hb (by decide)

/-- C6 (amended): for a strategy whose operations are deterministic functions
*and* whose `buildRegionFromData` always produces a region satisfying every
value it was built from, calling the facade's `rebalance` twice (with the
same fuel, both passes completing) gives identical query results for every
test region.  (Without the added region-satisfaction hypothesis the claim
fails: the first pass can drop values at the root, and the second pass then
rebuilds a different root region — see the counterexample.) -/
theorem rebalance_idempotent_of_region_sat (s : Strategy V R) (fuel : ℕ)
    (t t1 t2 : SearchTree2D V R)
    (hsat : ∀ (S : Finset V) (v : V), v ∈ S → s.satisfies (s.buildRegionFromData S) v = true)
    (h1 : SearchTree2D.rebalance s fuel t = some t1)
    (h2 : SearchTree2D.rebalance s fuel t1 = some t2) :
    ∀ test : R, t2.getNearbyValues s test = t1.getNearbyValues s test := by
  obtain ⟨m1, hm1, rfl⟩ : ∃ m1, Node.rebalance s fuel (t.m_tree.buildRootRegion s) = some m1 ∧
      t1 = ⟨m1⟩ := by
    rw [SearchTree2D.rebalance] at h1
    rcases hr : Node.rebalance s fuel (t.m_tree.buildRootRegion s) with _ | m1
    · rw [hr] at h1; exact Option.noConfusion h1
    · rw [hr, Option.map_some'] at h1
      exact ⟨m1, rfl, (Option.some.inj h1).symm⟩
  have hav0 : (t.m_tree.buildRootRegion s).getAllChildValues = t.m_tree.getAllChildValues := by
    rw [Node.buildRootRegion, Node.setCompare_allValues]
  have hcmp0 : (t.m_tree.buildRootRegion s).compare =
      s.buildRegionFromData t.m_tree.getAllChildValues := by
    rw [Node.buildRootRegion, Node.setCompare_compare]
  have hkept : (t.m_tree.buildRootRegion s).keptValues s = t.m_tree.getAllChildValues := by
    rw [Node.keptValues, hav0, hcmp0]
    exact Finset.filter_true_of_mem (fun v hv => hsat _ v hv)
  have havm1 : m1.getAllChildValues = t.m_tree.getAllChildValues := by
    apply Finset.Subset.antisymm
    · have := Node.rebalance_subset s fuel _ m1 hm1
      rwa [hav0] at this
    · have := Node.rebalance_superset s fuel _ m1 hm1
      rwa [hkept] at this
  have hcm1 : m1.compare = s.buildRegionFromData t.m_tree.getAllChildValues := by
    rw [Node.rebalance_compare s fuel _ m1 hm1, hcmp0]
  have hbrr : ((⟨m1⟩ : SearchTree2D V R).m_tree).buildRootRegion s = m1 := by
    show m1.buildRootRegion s = m1
    rw [Node.buildRootRegion, havm1, ← hcm1, Node.setCompare_self]
  have hidem : Node.rebalance s fuel m1 = some m1 := Node.rebalance_idem s fuel _ m1 hm1
  rw [SearchTree2D.rebalance, hbrr, hidem, Option.map_some'] at h2
  rw [← Option.some.inj h2]
  intro test
  rfl

/-- Witness for the amended C4 theorem at a concrete instance: rebalancing
the one-value tree under `cexW` completes, and the resulting value set is
contained in the prior one. -/
theorem rebalance_discard_bounds_witness :
    cexW_t1.m_tree.getAllChildValues ⊆ cexW_t.m_tree.getAllChildValues :=
  (rebalance_discard_bounds cexW 1 cexW_t cexW_t1 rfl).2.2.2

/-- Witness for the amended C6 theorem at a concrete instance: under `cexW`
every built region satisfies all its values, both rebalances of the one-value
tree complete (the second reproduces the first's result), and the query
results agree. -/
theorem rebalance_idempotent_of_region_sat_witness :
    cexW_t1.getNearbyValues cexW 0 = cexW_t1.getNearbyValues cexW 0 :=
  rebalance_idempotent_of_region_sat cexW 1 cexW_t cexW_t1 cexW_t1
    (fun _ _ _ => rfl) rfl rfl 0

/-- C10: `clear` removes values and children but keeps every node's region —
in particular the root's region is not reset to the strategy's `nilCompare`
that a freshly constructed node carries — so a cleared-then-refilled tree can
answer a query differently (here `{8}` versus `∅`) than a freshly built tree
with the same insertions, until a rebalance recomputes the region (after
which both answer `{8}`). -/
theorem clear_keeps_region :
    (∀ n : Node V R, n.clear.compare = n.compare) ∧
    (∀ s : Strategy V R, (Node.new s).compare = s.nilCompare) ∧
    ((((SearchTree2D.new cexC).add cexC 7).rebalance cexC 2).map (fun t1 =>
        (sortedList ((t1.clear.add cexC 8).getNearbyValues cexC 5),
         sortedList (((SearchTree2D.new cexC).add cexC 8).getNearbyValues cexC 5),
         ((t1.clear.add cexC 8).rebalance cexC 2).map
           (fun u => sortedList (u.getNearbyValues cexC 5)),
         (((SearchTree2D.new cexC).add cexC 8).rebalance cexC 2).map
           (fun u => sortedList (u.getNearbyValues cexC 5)))) =
      some ([8], [], some [8], some [8])) := by
  refine ⟨?_, ?_, by decide⟩
  · intro n
    rw [Node.clear_eq, Node.compare_mk]
  · intro s
    rfl

theorem Node.rebalance_noSubdiv_eq (s : Strategy V R) (fuel : ℕ) (n : Node V R)
    (hwf : n.hasChildren = true →
      (n.ul.isSome = true ∧ n.ur.isSome = true ∧ n.ll.isSome = true ∧ n.lr.isSome = true))
    (hcard : ¬ (n.keptValues s).card ≤ g_minDataSize)
    (hsub : Node.shouldSubdivide s (n.keptValues s)
      (s.buildQuadrantsFromData n.compare (n.keptValues s)) = false) :
    Node.rebalance s (fuel + 1) n = some (leafNode n.compare (n.keptValues s)) := by
  rcases n with ⟨c, ul, ur, ll, lr, d⟩
  by_cases hch : (ul.isSome || ur.isSome || ll.isSome || lr.isSome) = true
  · obtain ⟨h1, h2, h3, h4⟩ := hwf (by simpa using hch)
    obtain ⟨cul, rfl⟩ := Option.isSome_iff_exists.mp (by simpa using h1)
    obtain ⟨cur, rfl⟩ := Option.isSome_iff_exists.mp (by simpa using h2)
    obtain ⟨cll, rfl⟩ := Option.isSome_iff_exists.mp (by simpa using h3)
    obtain ⟨clr, rfl⟩ := Option.isSome_iff_exists.mp (by simpa using h4)
    exact Node.rebalance_branch_noSubdiv s fuel c cul cur cll clr d hcard hsub
  · obtain ⟨e1, e2, e3, e4⟩ := Node.hasChildren_false (Node.mk c ul ur ll lr d)
      (by rw [Node.hasChildren_mk]; exact Bool.eq_false_iff.mpr hch)
    rw [Node.ul_mk] at e1
    rw [Node.ur_mk] at e2
    rw [Node.ll_mk] at e3
    rw [Node.lr_mk] at e4
    subst e1; subst e2; subst e3; subst e4
    exact Node.rebalance_leaf_noSubdiv s fuel c d hcard hsub

theorem Node.rebalance_subdiv_eq (s : Strategy V R) (fuel : ℕ) (n : Node V R)
    (hwf : n.hasChildren = true →
      (n.ul.isSome = true ∧ n.ur.isSome = true ∧ n.ll.isSome = true ∧ n.lr.isSome = true))
    (hcard : ¬ (n.keptValues s).card ≤ g_minDataSize)
    (hsub : Node.shouldSubdivide s (n.keptValues s)
      (s.buildQuadrantsFromData n.compare (n.keptValues s)) = true) :
    Node.rebalance s (fuel + 1) n =
      Node.rebalanceKids s fuel (Node.addAll s (n.keptValues s) (quadBase s n)) := by
  rcases n with ⟨c, ul, ur, ll, lr, d⟩
  by_cases hch : (ul.isSome || ur.isSome || ll.isSome || lr.isSome) = true
  · obtain ⟨h1, h2, h3, h4⟩ := hwf (by simpa using hch)
    obtain ⟨cul, rfl⟩ := Option.isSome_iff_exists.mp (by simpa using h1)
    obtain ⟨cur, rfl⟩ := Option.isSome_iff_exists.mp (by simpa using h2)
    obtain ⟨cll, rfl⟩ := Option.isSome_iff_exists.mp (by simpa using h3)
    obtain ⟨clr, rfl⟩ := Option.isSome_iff_exists.mp (by simpa using h4)
    rw [Node.rebalance_branch_subdiv s fuel c cul cur cll clr d hcard hsub]
    simp only [quadBase, childOrNew, Node.compare_mk, Node.ul_mk, Node.ur_mk, Node.ll_mk,
      Node.lr_mk]
  · obtain ⟨e1, e2, e3, e4⟩ := Node.hasChildren_false (Node.mk c ul ur ll lr d)
      (by rw [Node.hasChildren_mk]; exact Bool.eq_false_iff.mpr hch)
    rw [Node.ul_mk] at e1
    rw [Node.ur_mk] at e2
    rw [Node.ll_mk] at e3
    rw [Node.lr_mk] at e4
    subst e1; subst e2; subst e3; subst e4
    rw [Node.rebalance_leaf_subdiv s fuel c d hcard hsub]
    simp only [quadBase, childOrNew, Node.compare_mk, Node.ul_mk, Node.ur_mk, Node.ll_mk,
      Node.lr_mk]

theorem slot_shape (s : Strategy V R) (fuel : ℕ) (vals : Finset V) (b : Node V R)
    {x : Option (Node V R)}
    (hx : rebOpt s fuel ((sortedList vals).foldl (fun o v => addOpt s v o) (some b)) = some x) :
    ∃ k', x = some k' ∧ k'.compare = b.compare := by
  rw [foldl_addOpt_some] at hx
  rcases rebOpt_some_inv hx with ⟨hnone, _⟩ | ⟨k, k', hk, hreb, rfl⟩
  · exact Option.noConfusion hnone
  · refine ⟨k', rfl, ?_⟩
    rw [Node.rebalance_compare s fuel k k' hreb, ← Option.some.inj hk, foldl_condAdd_compare]

/-- C3: one rebalance pass, with the node's region already fixed and letting
`V` be the reachable values that survive the region check: the node becomes a
leaf holding exactly `V` (children deleted, or none created) when `|V|` is at
or below the threshold, or when every value of `V` satisfies all four
candidate quadrant regions; otherwise the node subdivides — the pass re-adds
`V` through the node's own `add` into the four quadrant children (orphans
retained locally) and rebalances every child recursively, so that on
completion the node is a branch with all four children present carrying the
candidate quadrant regions.  (The zero-or-four-children hypothesis is the
invariant C7 establishes; with one to three children the source dereferences
a null pointer in this path.) -/
theorem rebalance_leaf_or_subdivide (s : Strategy V R) (fuel : ℕ) (n : Node V R)
    (hwf : n.hasChildren = true →
      (n.ul.isSome = true ∧ n.ur.isSome = true ∧ n.ll.isSome = true ∧ n.lr.isSome = true)) :
    ((n.keptValues s).card ≤ g_minDataSize →
      Node.rebalance s (fuel + 1) n = some (leafNode n.compare (n.keptValues s))) ∧
    (¬ (n.keptValues s).card ≤ g_minDataSize →
      Node.shouldSubdivide s (n.keptValues s)
        (s.buildQuadrantsFromData n.compare (n.keptValues s)) = false →
      Node.rebalance s (fuel + 1) n = some (leafNode n.compare (n.keptValues s))) ∧
    (¬ (n.keptValues s).card ≤ g_minDataSize →
      Node.shouldSubdivide s (n.keptValues s)
        (s.buildQuadrantsFromData n.compare (n.keptValues s)) = true →
      Node.rebalance s (fuel + 1) n =
        Node.rebalanceKids s fuel (Node.addAll s (n.keptValues s) (quadBase s n)) ∧
      (∀ m, Node.rebalance s (fuel + 1) n = some m →
        m.compare = n.compare ∧
        m.data = (Node.addAll s (n.keptValues s) (quadBase s n)).data ∧
        ∃ k1 k2 k3 k4 : Node V R, m.ul = some k1 ∧ m.ur = some k2 ∧ m.ll = some k3 ∧
          m.lr = some k4 ∧
          k1.compare = (s.buildQuadrantsFromData n.compare (n.keptValues s)).1 ∧
          k2.compare = (s.buildQuadrantsFromData n.compare (n.keptValues s)).2.1 ∧
          k3.compare = (s.buildQuadrantsFromData n.compare (n.keptValues s)).2.2.1 ∧
          k4.compare = (s.buildQuadrantsFromData n.compare (n.keptValues s)).2.2.2)) := by
  refine ⟨Node.rebalance_small s fuel n, Node.rebalance_noSubdiv_eq s fuel n hwf, ?_⟩
  intro hcard hsub
  refine ⟨Node.rebalance_subdiv_eq s fuel n hwf hcard hsub, ?_⟩
  intro m hm
  rcases Node.rebalance_succ_inv hm with ⟨hwhy, rfl⟩ | ⟨_, _, hkids⟩
  · rcases hwhy with hc | hs
    · exact absurd hc hcard
    · rw [hsub] at hs
      exact Bool.noConfusion hs
  · obtain ⟨ul', ur', ll', lr', h1, h2, h3, h4, rfl⟩ := Node.rebalanceKids_inv hkids
    rw [Node.addAll_ul] at h1
    rw [Node.addAll_ur] at h2
    rw [Node.addAll_ll] at h3
    rw [Node.addAll_lr] at h4
    simp only [quadBase, Node.ul_mk, Node.ur_mk, Node.ll_mk, Node.lr_mk] at h1 h2 h3 h4
    obtain ⟨k1, rfl, hc1⟩ := slot_shape s fuel _ _ h1
    obtain ⟨k2, rfl, hc2⟩ := slot_shape s fuel _ _ h2
    obtain ⟨k3, rfl, hc3⟩ := slot_shape s fuel _ _ h3
    obtain ⟨k4, rfl, hc4⟩ := slot_shape s fuel _ _ h4
    rw [childOrNew_compare] at hc1 hc2 hc3 hc4
    exact ⟨by rw [Node.compare_mk, Node.addAll_compare, quadBase_compare], rfl,
      k1, k2, k3, k4, rfl, rfl, rfl, rfl, hc1, hc2, hc3, hc4⟩

/-- Witness for C3 at a concrete instance: a childless node holding two
values is at the threshold, so one rebalance pass leaves it a leaf holding
its surviving set. -/
theorem rebalance_leaf_or_subdivide_witness :
    Node.rebalance cexW 1 (leafNode 0 ({1, 2} : Finset ℕ)) =
      some (leafNode (leafNode 0 ({1, 2} : Finset ℕ)).compare
        ((leafNode 0 ({1, 2} : Finset ℕ)).keptValues cexW)) :=
  (rebalance_leaf_or_subdivide cexW 0 (leafNode 0 ({1, 2} : Finset ℕ)) (by decide)).1
    (by decide)

@[simp] theorem optWF_none : optWF (V := V) (R := R) none := trivial

@[simp] theorem optWF_some (n : Node V R) : optWF (some n) = n.wf := by rw [optWF]

theorem Node.wf_mk (c : R) (ul ur ll lr : Option (Node V R)) (d : Finset V) :
    (Node.mk c ul ur ll lr d).wf =
      (((ul = none ∧ ur = none ∧ ll = none ∧ lr = none) ∨
        (ul.isSome = true ∧ ur.isSome = true ∧ ll.isSome = true ∧ lr.isSome = true)) ∧
      optWF ul ∧ optWF ur ∧ optWF ll ∧ optWF lr) := by
  rw [Node.wf]

theorem wf_new (s : Strategy V R) : (Node.new s).wf := by
  rw [Node.new, Node.wf_mk]
  exact ⟨Or.inl ⟨rfl, rfl, rfl, rfl⟩, trivial, trivial, trivial, trivial⟩

theorem wf_leafNode (c : R) (d : Finset V) : (leafNode c d : Node V R).wf := by
  rw [leafNode_eq, Node.wf_mk]
  exact ⟨Or.inl ⟨rfl, rfl, rfl, rfl⟩, trivial, trivial, trivial, trivial⟩

theorem addOpt_isSome (s : Strategy V R) (v : V) (o : Option (Node V R)) :
    (addOpt s v o).isSome = o.isSome := by
  cases o with
  | none => rfl
  | some m =>
      rw [addOpt_some]
      by_cases hs : s.satisfies m.compare v = true <;> simp [hs]

theorem addOpt_eq_none_iff (s : Strategy V R) (v : V) (o : Option (Node V R)) :
    addOpt s v o = none ↔ o = none := by
  cases o with
  | none => simp
  | some m =>
      rw [addOpt_some]
      by_cases hs : s.satisfies m.compare v = true <;> simp [hs]

theorem optWF_addOpt (s : Strategy V R) (v : V) (o : Option (Node V R))
    (IH : ∀ k, o = some k → k.wf → (k.add s v).wf) (h : optWF o) : optWF (addOpt s v o) := by
  cases o with
  | none => exact trivial
  | some m =>
      rw [addOpt_some]
      by_cases hs : s.satisfies m.compare v = true
      · rw [if_pos hs, optWF_some]
        exact IH m rfl (by rwa [optWF_some] at h)
      · rwa [if_neg hs]

theorem wf_add (s : Strategy V R) (v : V) : ∀ n : Node V R, n.wf → (n.add s v).wf := by
  intro n
  induction n using Node.myRec with
  | h c ul ur ll lr d hul hur hll hlr =>
    intro hwf
    rw [Node.wf_mk] at hwf
    obtain ⟨hshape, w1, w2, w3, w4⟩ := hwf
    rw [Node.add_eq]
    simp only [Node.compare_mk, Node.ul_mk, Node.ur_mk, Node.ll_mk, Node.lr_mk, Node.data_mk]
    rw [Node.wf_mk]
    refine ⟨?_, optWF_addOpt s v ul hul w1, optWF_addOpt s v ur hur w2,
      optWF_addOpt s v ll hll w3, optWF_addOpt s v lr hlr w4⟩
    rcases hshape with ⟨e1, e2, e3, e4⟩ | ⟨i1, i2, i3, i4⟩
    · exact Or.inl ⟨(addOpt_eq_none_iff s v ul).mpr e1, (addOpt_eq_none_iff s v ur).mpr e2,
        (addOpt_eq_none_iff s v ll).mpr e3, (addOpt_eq_none_iff s v lr).mpr e4⟩
    · rw [← addOpt_isSome s v ul] at i1
      rw [← addOpt_isSome s v ur] at i2
      rw [← addOpt_isSome s v ll] at i3
      rw [← addOpt_isSome s v lr] at i4
      exact Or.inr ⟨i1, i2, i3, i4⟩

theorem removeOpt_isSome (v : V) (o : Option (Node V R)) :
    (removeOpt v o).isSome = o.isSome := by
  cases o <;> rfl

theorem removeOpt_eq_none_iff (v : V) (o : Option (Node V R)) :
    removeOpt v o = none ↔ o = none := by
  cases o <;> simp

theorem optWF_removeOpt (v : V) (o : Option (Node V R))
    (IH : ∀ k, o = some k → k.wf → (k.remove v).wf) (h : optWF o) : optWF (removeOpt v o) := by
  cases o with
  | none => exact trivial
  | some m =>
      rw [removeOpt_some, optWF_some]
      exact IH m rfl (by rwa [optWF_some] at h)

theorem wf_remove (v : V) : ∀ n : Node V R, n.wf → (n.remove v).wf := by
  intro n
  induction n using Node.myRec with
  | h c ul ur ll lr d hul hur hll hlr =>
    intro hwf
    rw [Node.wf_mk] at hwf
    obtain ⟨hshape, w1, w2, w3, w4⟩ := hwf
    rw [Node.remove_mk, Node.wf_mk]
    refine ⟨?_, optWF_removeOpt v ul hul w1, optWF_removeOpt v ur hur w2,
      optWF_removeOpt v ll hll w3, optWF_removeOpt v lr hlr w4⟩
    rcases hshape with ⟨e1, e2, e3, e4⟩ | ⟨i1, i2, i3, i4⟩
    · exact Or.inl ⟨(removeOpt_eq_none_iff v ul).mpr e1, (removeOpt_eq_none_iff v ur).mpr e2,
        (removeOpt_eq_none_iff v ll).mpr e3, (removeOpt_eq_none_iff v lr).mpr e4⟩
    · rw [← removeOpt_isSome v ul] at i1
      rw [← removeOpt_isSome v ur] at i2
      rw [← removeOpt_isSome v ll] at i3
      rw [← removeOpt_isSome v lr] at i4
      exact Or.inr ⟨i1, i2, i3, i4⟩

theorem wf_clear (n : Node V R) : n.clear.wf := by
  rw [Node.clear_eq, Node.wf_mk]
  exact ⟨Or.inl ⟨rfl, rfl, rfl, rfl⟩, trivial, trivial, trivial, trivial⟩

theorem wf_setCompare (c : R) (n : Node V R) (h : n.wf) : (n.setCompare c).wf := by
  rcases n with ⟨c0, ul, ur, ll, lr, d⟩
  rw [Node.setCompare_mk]
  rw [Node.wf_mk] at h ⊢
  exact h

/-- The result of a successful rebalance always satisfies the zero-or-four
invariant, whatever the input looked like. -/
theorem wf_rebalance (s : Strategy V R) :
    ∀ fuel (n m : Node V R), Node.rebalance s fuel n = some m → m.wf := by
  intro fuel
  induction fuel with
  | zero => intro n m h; exact Option.noConfusion h
  | succ fuel ih =>
      intro n m h
      rcases Node.rebalance_succ_inv h with ⟨_, rfl⟩ | ⟨_, _, hkids⟩
      · exact wf_leafNode _ _
      · obtain ⟨ul', ur', ll', lr', h1, h2, h3, h4, rfl⟩ := Node.rebalanceKids_inv hkids
        rw [Node.addAll_ul] at h1
        rw [Node.addAll_ur] at h2
        rw [Node.addAll_ll] at h3
        rw [Node.addAll_lr] at h4
        simp only [quadBase, Node.ul_mk, Node.ur_mk, Node.ll_mk, Node.lr_mk] at h1 h2 h3 h4
        have hs : ∀ (b : Node V R) (x : Option (Node V R)),
            rebOpt s fuel ((sortedList (n.keptValues s)).foldl
              (fun o v => addOpt s v o) (some b)) = some x →
            ∃ k', x = some k' ∧ k'.wf := by
          intro b x hx
          rw [foldl_addOpt_some] at hx
          rcases rebOpt_some_inv hx with ⟨hnone, _⟩ | ⟨k, k', _, hreb, rfl⟩
          · exact Option.noConfusion hnone
          · exact ⟨k', rfl, ih k k' hreb⟩
        obtain ⟨k1, rfl, hw1⟩ := hs _ _ h1
        obtain ⟨k2, rfl, hw2⟩ := hs _ _ h2
        obtain ⟨k3, rfl, hw3⟩ := hs _ _ h3
        obtain ⟨k4, rfl, hw4⟩ := hs _ _ h4
        rw [Node.wf_mk]
        exact ⟨Or.inr ⟨rfl, rfl, rfl, rfl⟩, by rwa [optWF_some], by rwa [optWF_some],
          by rwa [optWF_some], by rwa [optWF_some]⟩

theorem wf_hasChildren {n : Node V R} (hwf : n.wf) (hch : n.hasChildren = true) :
    n.ul.isSome = true ∧ n.ur.isSome = true ∧ n.ll.isSome = true ∧ n.lr.isSome = true := by
  rcases n with ⟨c, ul, ur, ll, lr, d⟩
  rw [Node.wf_mk] at hwf
  rcases hwf.1 with ⟨e1, e2, e3, e4⟩ | hsome
  · rw [Node.hasChildren_mk, e1, e2, e3, e4] at hch
    exact Bool.noConfusion hch
  · exact hsome

/-- C7: every tree reachable through the public operations satisfies the
zero-or-four-children invariant at every node; in particular a root with any
child has all four, which is what makes the unguarded child dereference in
the quadrant-rebuild step of `Node::rebalance` safe. -/
theorem reachable_zero_or_four_children (s : Strategy V R) (t : SearchTree2D V R)
    (h : Reachable s t) :
    t.m_tree.wf ∧
      (t.m_tree.hasChildren = true →
        t.m_tree.ul.isSome = true ∧ t.m_tree.ur.isSome = true ∧
        t.m_tree.ll.isSome = true ∧ t.m_tree.lr.isSome = true) := by
  have hwf : t.m_tree.wf := by
    induction h with
    | new => exact wf_new s
    | add v _ ih => exact wf_add s v _ ih
    | remove v _ ih => exact wf_remove v _ ih
    | clear _ ih => exact wf_clear _
    | copy _ ih => rw [SearchTree2D.copy, Node.copy_eq]; exact ih
    | rebalance fuel _ hreb ih =>
        rw [SearchTree2D.rebalance] at hreb
        rcases hr : Node.rebalance s fuel _ with _ | m
        · rw [hr] at hreb; exact Option.noConfusion hreb
        · rw [hr, Option.map_some'] at hreb
          rw [← Option.some.inj hreb]
          exact wf_rebalance s fuel _ m hr
  exact ⟨hwf, wf_hasChildren hwf⟩

/-- Witness for C7 at a concrete instance: the freshly constructed tree is
reachable and satisfies the invariant. -/
theorem reachable_zero_or_four_children_witness :
    (SearchTree2D.new cexW).m_tree.wf ∧
      ((SearchTree2D.new cexW).m_tree.hasChildren = true →
        (SearchTree2D.new cexW).m_tree.ul.isSome = true ∧
        (SearchTree2D.new cexW).m_tree.ur.isSome = true ∧
        (SearchTree2D.new cexW).m_tree.ll.isSome = true ∧
        (SearchTree2D.new cexW).m_tree.lr.isSome = true) :=
  reachable_zero_or_four_children cexW (SearchTree2D.new cexW) Reachable.new
